import Mathlib

/-!
Verification of the grits template compiler and interpreter.

This development shallowly embeds the template subsystem of the grits
repository: the character-cursor parser (`src/template/parse/mod.rs`,
function `parse_impl`), the attribute engine (`src/template/parse/attr.rs`),
and the output-template construction and transform engine
(`src/template/mod.rs`).  Strings are modelled as `List Char`, matching the
parser's `Vec<char>` token buffer.  The recursive state machine
`parse_impl` is embedded as a small-step function `step` driven by a fuel
counter: one unit of fuel corresponds to one recursive invocation of
`parse_impl` in the source, so fuel exhaustion at every fuel value models
non-termination of the source.
-/

namespace Grits

/-! ### Token constants

Modelled from the spec: the repository declares `mod token` in
`src/template/mod.rs` but the file `token.rs` itself is not present under
`src/`.  The constant values below are reconstructed from the grammar in
the spec (section 6) and pinned by the repository's tests
(`src/template/test.rs`, `src/template/parse/test.rs`), which exercise
templates such as "log=\x7bfoo\x7d", "\x7b(red|bold):foo[1]||bar[1]\x7d",
"primary=\x7bfoo || 'bar'\x7d" and "\x7b(lalign(9)):foo\x7d". -/

def ESCAPE : Char := '\\'
def ANCHOR_OPEN : Char := '\x7b'
def ANCHOR_CLOSE : Char := '\x7d'
def REQUIRED : Char := '!'
def ATTRIBUTE_OPEN : Char := '('
def ATTRIBUTE_CLOSE : Char := ')'
def ATTRIBUTE_END : Char := ':'
def ATTRIBUTE_DELIMETER : Char := '|'
def DEFAULT_PIPE : Char := '|'
def INDEX_OPEN : Char := '['
def INDEX_CLOSE : Char := ']'
def LITERAL_SINGLE_QUOTE : Char := Char.ofNat 39
def LITERAL_DOUBLE_QUOTE : Char := '"'
def PARAM_OPEN : Char := '('
def PARAM_CLOSE : Char := ')'
def PARAM_DELIMETER : Char := ','

/-! ### Character-level helpers -/

/-- Rust `char::is_ascii_whitespace`: space, tab, newline, carriage return,
form feed. -/
def isAsciiWs (c : Char) : Bool :=
  c = ' ' || c = '\t' || c = '\n' || c = '\r' || c = '\x0c'

/-- Embeds `Rules::name_is_valid` from `src/template/parse/rules.rs`: the
name must match the regular expression `^[a-zA-Z0-9_]+$` (non-empty, ASCII
alphanumerics and underscore only).  `Char.isAlphanum` is exactly the ASCII
class `[a-zA-Z0-9]`. -/
def name_is_valid (s : List Char) : Bool :=
  !s.isEmpty && s.all fun c => c.isAlphanum || c = '_'

/-- Slice `ts[a..b]` of a character buffer.  All call sites below are
in-bounds with `a ≤ b` (arguments are cursor positions validated by the
scanning loops), so the total `drop`/`take` encoding agrees with Rust
slicing there. -/
def listSlice (ts : List Char) (a b : Nat) : List Char :=
  (ts.drop a).take (b - a)

/-- Rust `str::parse::<usize>`: optional leading plus sign, then one or
more ASCII digits.  (Overflow of `usize` is not modelled; no input below
approaches it.) -/
def parseUsize (s : List Char) : Option Nat :=
  let digits := match s with
    | '+' :: rest => rest
    | other => other
  if digits.isEmpty then none
  else if digits.all Char.isDigit then
    some (digits.foldl (fun n c => n * 10 + (c.toNat - 48)) 0)
  else none

/-- Rust `str::split` on a single separator character: always returns at
least one (possibly empty) piece. -/
def splitOnChar (sep : Char) : List Char → List (List Char)
  | [] => [[]]
  | c :: rest =>
    match splitOnChar sep rest with
    | [] => [[c]]
    | piece :: pieces =>
      if c = sep then [] :: piece :: pieces else (c :: piece) :: pieces

/-- Rust `str::trim` (whitespace stripped from both ends; ASCII whitespace
suffices for every input in this development). -/
def trimList (s : List Char) : List Char :=
  ((s.dropWhile isAsciiWs).reverse.dropWhile isAsciiWs).reverse

/-- The quote-stripping pipeline applied to each raw attribute argument in
`Attribute::parse` (`attr.rs` lines 71-76): `trim_start_matches('\'')`,
`trim_start_matches('"')`, `trim_end_matches('\'')`,
`trim_end_matches('"')`, in that order. -/
def stripQuotes (s : List Char) : List Char :=
  let s1 := s.dropWhile (· = LITERAL_SINGLE_QUOTE)
  let s2 := s1.dropWhile (· = LITERAL_DOUBLE_QUOTE)
  let s3 := (s2.reverse.dropWhile (· = LITERAL_SINGLE_QUOTE)).reverse
  (s3.reverse.dropWhile (· = LITERAL_DOUBLE_QUOTE)).reverse

/-! ### Attribute engine (`src/template/parse/attr.rs`) -/

inductive Alignment
  | left
  | right
  | center
deriving DecidableEq, Repr

/-- `AttributeKind` from `attr.rs`. -/
inductive AttributeKind
  | black | red | green | yellow | blue | magenta | cyan | white
  | bgBlack | bgRed | bgGreen | bgYellow | bgBlue | bgMagenta | bgCyan | bgWhite
  | bold | underlined | reverse | crossedOut
  | align (direction : Alignment) (width : Nat)
deriving DecidableEq, Repr

/-- `Attribute` from `attr.rs`.  The `must_match` field holds the raw
pattern text of the compiled `Regex`; the regex engine itself is an
external collaborator and is abstracted as the `isMatch` parameter of
`Attribute.apply`. -/
structure Attribute where
  kind : AttributeKind
  must_match : Option (List Char) := none
deriving DecidableEq, Repr

/-- Errors produced by `Attribute::parse` (anyhow error messages in the
source, distinguished here by kind). -/
inductive AttrErr
  | conditionalNeedsArg
  | alignNeedsArg
  | alignWidthNotNumber
  | unrecognized
deriving DecidableEq, Repr

/-- Helper for `Attribute.parse`: resolve the lowercased attribute name and
the argument list remaining after the optional conditional pattern was
consumed.  Mirrors the `match attr_name.as_str()` block of `attr.rs` lines
98-146. -/
def attrKindOf (attr_name : List Char) (args : List (List Char))
    (mm : Option (List Char)) : Except AttrErr Attribute :=
  let mkA := fun (k : AttributeKind) => Except.ok (Attribute.mk k mm)
  if attr_name = "black".toList then mkA .black
  else if attr_name = "red".toList then mkA .red
  else if attr_name = "green".toList then mkA .green
  else if attr_name = "yellow".toList then mkA .yellow
  else if attr_name = "blue".toList then mkA .blue
  else if attr_name = "magenta".toList then mkA .magenta
  else if attr_name = "cyan".toList then mkA .cyan
  else if attr_name = "white".toList then mkA .white
  else if attr_name = "bg_black".toList ∨ attr_name = "bg-black".toList then mkA .bgBlack
  else if attr_name = "bg_red".toList ∨ attr_name = "bg-red".toList then mkA .bgRed
  else if attr_name = "bg_green".toList ∨ attr_name = "bg-green".toList then mkA .bgGreen
  else if attr_name = "bg_yellow".toList ∨ attr_name = "bg-yellow".toList then mkA .bgYellow
  else if attr_name = "bg_blue".toList ∨ attr_name = "bg-blue".toList then mkA .bgBlue
  else if attr_name = "bg_magenta".toList ∨ attr_name = "bg-magenta".toList then mkA .bgMagenta
  else if attr_name = "bg_cyan".toList ∨ attr_name = "bg-cyan".toList then mkA .bgCyan
  else if attr_name = "bg_white".toList ∨ attr_name = "bg-white".toList then mkA .bgWhite
  else if attr_name = "bold".toList then mkA .bold
  else if attr_name = "underlined".toList then mkA .underlined
  else if attr_name = "reverse".toList then mkA .reverse
  else if attr_name = "crossedout".toList ∨ attr_name = "crossed_out".toList
      ∨ attr_name = "crossed-out".toList then mkA .crossedOut
  else if attr_name = "lalign".toList ∨ attr_name = "calign".toList
      ∨ attr_name = "ralign".toList then
    match args with
    | [] => Except.error .alignNeedsArg
    | w :: _ =>
      match parseUsize w with
      | none => Except.error .alignWidthNotNumber
      | some width =>
        if attr_name = "lalign".toList then mkA (.align .left width)
        else if attr_name = "calign".toList then mkA (.align .center width)
        else mkA (.align .right width)
  else Except.error .unrecognized

/-- Embeds `Attribute::parse` (`attr.rs` lines 58-149).  A leading `?`
marks a conditional attribute whose first argument is the `must_match`
pattern (pattern compilation by the external regex crate is modelled as
always succeeding; no claim below exercises an invalid pattern).  The raw
argument string is split on commas, and each piece is trimmed and stripped
of quotes. -/
def Attribute.parse (val : List Char) (raw_args : Option (List Char)) :
    Except AttrErr Attribute :=
  let conditional := val.head? = some '?'
  let attr_name := (if conditional then val.tail else val).map Char.toLower
  let args := match raw_args with
    | none => []
    | some rarg => (splitOnChar PARAM_DELIMETER rarg).map fun a => stripQuotes (trimList a)
  if conditional then
    match args with
    | [] => Except.error .conditionalNeedsArg
    | pattern :: restArgs => attrKindOf attr_name restArgs (some pattern)
  else attrKindOf attr_name args none

/-! ### Minimal model of crossterm styling

Modelled from the spec: crossterm is an external collaborator ("color/style
attributes wrap with the corresponding terminal styling").  A
`StyledContent` carries a content string and a `ContentStyle` (optional
foreground and background colors plus emphasis flags, with set semantics as
in crossterm's attribute bitset).  Rendering a fully-default style emits
the bare content with no escape codes, which is the fact the claims rely
on; a non-default style wraps the content in an SGR prefix and a reset. -/

inductive CtColor
  | black | red | green | yellow | blue | magenta | cyan | white
deriving DecidableEq, Repr

structure ContentStyle where
  fg : Option CtColor := none
  bg : Option CtColor := none
  boldOn : Bool := false
  underlinedOn : Bool := false
  reversedOn : Bool := false
  crossedOutOn : Bool := false
deriving DecidableEq, Repr

structure StyledContent where
  style : ContentStyle := {}
  content : List Char
deriving DecidableEq, Repr

/-- Rust `str::stylize`: wrap a plain string with the default style. -/
def stylize (s : List Char) : StyledContent := { content := s }

def ctColorCode : CtColor → Nat
  | .black => 0 | .red => 1 | .green => 2 | .yellow => 3
  | .blue => 4 | .magenta => 5 | .cyan => 6 | .white => 7

def natChars (n : Nat) : List Char := (Nat.toDigits 10 n)

def styleCodes (st : ContentStyle) : List Nat :=
  (st.fg.elim [] fun c => [30 + ctColorCode c])
    ++ (st.bg.elim [] fun c => [40 + ctColorCode c])
    ++ (if st.boldOn then [1] else [])
    ++ (if st.underlinedOn then [4] else [])
    ++ (if st.reversedOn then [7] else [])
    ++ (if st.crossedOutOn then [9] else [])

def sgr (codes : List Nat) : List Char :=
  '\x1b' :: '[' :: List.intercalate [';'] (codes.map natChars) ++ ['m']

/-- Rendering (`Display for StyledContent`): a default style prints the
bare content; otherwise the content is wrapped in style codes and a
reset. -/
def StyledContent.render (sc : StyledContent) : List Char :=
  if sc.style = {} then sc.content
  else sgr (styleCodes sc.style) ++ sc.content ++ sgr [0]

/-- Rust `format!("\x7bval:<width$\x7d")` and friends: pad with spaces to
`width` (character count), never truncating. -/
def padTo (dir : Alignment) (width : Nat) (s : List Char) : List Char :=
  if width ≤ s.length then s
  else
    let pad := width - s.length
    match dir with
    | .left => s ++ List.replicate pad ' '
    | .right => List.replicate pad ' ' ++ s
    | .center => List.replicate (pad / 2) ' ' ++ s ++ List.replicate (pad - pad / 2) ' '

/-- One arm of the `match attribute.kind` block inside `Attribute::apply`
(`attr.rs` lines 160-195): colors and emphases update the style; an
alignment renders the current styled value, pads it, and re-wraps the
padded text as a fresh unstyled value. -/
def applyKind (k : AttributeKind) (v : StyledContent) : StyledContent :=
  match k with
  | .black => { v with style := { v.style with fg := some .black } }
  | .red => { v with style := { v.style with fg := some .red } }
  | .green => { v with style := { v.style with fg := some .green } }
  | .yellow => { v with style := { v.style with fg := some .yellow } }
  | .blue => { v with style := { v.style with fg := some .blue } }
  | .magenta => { v with style := { v.style with fg := some .magenta } }
  | .cyan => { v with style := { v.style with fg := some .cyan } }
  | .white => { v with style := { v.style with fg := some .white } }
  | .bgBlack => { v with style := { v.style with bg := some .black } }
  | .bgRed => { v with style := { v.style with bg := some .red } }
  | .bgGreen => { v with style := { v.style with bg := some .green } }
  | .bgYellow => { v with style := { v.style with bg := some .yellow } }
  | .bgBlue => { v with style := { v.style with bg := some .blue } }
  | .bgMagenta => { v with style := { v.style with bg := some .magenta } }
  | .bgCyan => { v with style := { v.style with bg := some .cyan } }
  | .bgWhite => { v with style := { v.style with bg := some .white } }
  | .bold => { v with style := { v.style with boldOn := true } }
  | .underlined => { v with style := { v.style with underlinedOn := true } }
  | .reverse => { v with style := { v.style with reversedOn := true } }
  | .crossedOut => { v with style := { v.style with crossedOutOn := true } }
  | .align dir width => stylize (padTo dir width v.render)

/-- Embeds `Attribute::apply` (`attr.rs` lines 152-198).  `isMatch`
abstracts the external regex engine's `Regex::is_match`; an attribute with
a `must_match` pattern is skipped when the original unstyled text fails to
match. -/
def Attribute.apply (isMatch : List Char → List Char → Bool)
    (txt : List Char) (attributes : List Attribute) : List Char :=
  (attributes.foldl
    (fun val attr =>
      match attr.must_match with
      | some re => if !isMatch re txt then val else applyKind attr.kind val
      | none => applyKind attr.kind val)
    (stylize txt)).render

/-! ### Parser data model (`src/template/parse/mod.rs`) -/

/-- `DefaultValue` from `parse/mod.rs`. -/
inductive DefaultValue
  | literal (v : List Char)
  | anchor (name : List Char) (index : Option Nat)
deriving DecidableEq, Repr

/-- `Anchor` from `parse/mod.rs`.  The Rust field `end` is spelled
`«end»`. -/
structure Anchor where
  name : List Char := []
  start : Nat := 0
  «end» : Nat := 0
  index : Option Nat := none
  defaults : List DefaultValue := []
  attributes : List Attribute := []
  required : Bool := false
deriving DecidableEq, Repr

/-- `ParseStateMode` from `parse/mod.rs`. -/
inductive ParseStateMode
  | base
  | escaping
  | anchorBegin
  | anchorParseBase
  | anchorParseIndex
  | anchorParseDefaultValue
  | anchorParseDefaultLiteral
  | anchorParseDefaultAnchor
  | attributeParse
deriving DecidableEq, Repr

/-- `ParseState` from `parse/mod.rs` (the debug-only `recursion_depth`
field is dropped). -/
structure ParseState where
  cursor : Nat
  tokens : List Char
  mode : ParseStateMode
  bound_anchor : Option Anchor
deriving DecidableEq, Repr

/-- Error kinds of `ParseError` (`src/template/error.rs`).  The
constructors `default_disallowed_with_required`, `attribute_unclosed`,
`attribute_end` and `string_parameter_missing_closing_quote` are called
from `parse/mod.rs` but absent from the copy of `error.rs` in the tree;
they are modelled from the spec's error list (section 7). -/
inductive ParseErrorKind
  | missingEscapee
  | invalidAnchorName
  | unclosedAnchor
  | invalidIndex
  | invalidIndexingOperation
  | invalidDefaultValueOperation
  | defaultStrLiteralMissingClosingQuote
  | defaultParsingDisallowedChar
  | indexParsingEol
  | defaultParsingEol
  | defaultDisallowedWithRequired
  | attributeUnclosed
  | attributeEnd
  | stringParameterMissingClosingQuote
deriving DecidableEq, Repr

/-- `ParseError`: kind plus the offending character index (the copied
partial template of the source struct is recoverable from the input and
not stored). -/
structure ParseError where
  kind : ParseErrorKind
  char_index : Nat
deriving DecidableEq, Repr

/-- Failure modes of `parse`: a `ParseError`, an `Attribute::parse` error
propagated through `?`, or the `format_err!` internal-invariant branches
(`unexpected`). -/
inductive PErr
  | parse (e : ParseError)
  | attr (e : AttrErr)
  | unexpected
  | panicked
deriving DecidableEq, Repr

/-! ### Scanning loop helpers

Each `for`/`while` loop inside `parse_impl` is embedded as a structurally
recursive function on an explicit iteration count.  Callers pass the exact
count of the Rust loop's range (`tokens.len() - cursor`), so the fuel-zero
clauses coincide with the loop's own exit condition. -/

/-- Base-mode scan (`parse_impl`, Base arm): first index `j ≥ i` holding
the escape or anchor-open token. -/
def baseFind (ts : List Char) : Nat → Nat → Option (Nat × Char)
  | 0, _ => none
  | k+1, i =>
    match ts.get? i with
    | none => none
    | some c =>
      if c = ESCAPE then some (i, c)
      else if c = ANCHOR_OPEN then some (i, c)
      else baseFind ts k (i+1)

/-- AnchorParseBase scan: first index `j ≥ i` holding one of the four
tokens that end plain name accumulation (`[`, close, `|`, or a quote). -/
def apbFind (ts : List Char) : Nat → Nat → Option Nat
  | 0, _ => none
  | k+1, i =>
    match ts.get? i with
    | none => none
    | some c =>
      if c = INDEX_OPEN ∨ c = ANCHOR_CLOSE ∨ c = DEFAULT_PIPE
          ∨ c = LITERAL_DOUBLE_QUOTE ∨ c = LITERAL_SINGLE_QUOTE then some i
      else apbFind ts k (i+1)

/-- AnchorParseIndex scan: first index `j ≥ i` holding `]`. -/
def idxFind (ts : List Char) : Nat → Nat → Option Nat
  | 0, _ => none
  | k+1, i =>
    match ts.get? i with
    | none => none
    | some c => if c = INDEX_CLOSE then some i else idxFind ts k (i+1)

/-- Whitespace-skipping loops of the AnchorParseDefaultLiteral and
AnchorParseDefaultAnchor arms: the cursor is set to each index in turn and
the loop breaks at the first non-whitespace token, so the final cursor is
the first non-whitespace index, or the last index of the buffer when
everything from `i` on is whitespace, or `i` itself when the range is
empty. -/
def wsSkip (ts : List Char) : Nat → Nat → Nat
  | 0, i => i
  | k+1, i =>
    match ts.get? i with
    | none => i
    | some c =>
      if isAsciiWs c then (if k = 0 then i else wsSkip ts k (i+1)) else i

/-- Result of the AnchorParseDefaultValue dispatch scan. -/
inductive DvScanRes
  | found (i : Nat) (c : Char)
  | eol (finalCursor : Nat)
deriving DecidableEq, Repr

/-- AnchorParseDefaultValue scan (lines 293-312): skip whitespace and
report the first non-whitespace token, or the final cursor value when the
scan fell off the end of the buffer. -/
def dvScan (ts : List Char) : Nat → Nat → DvScanRes
  | 0, i => .eol i
  | k+1, i =>
    match ts.get? i with
    | none => .eol i
    | some c =>
      if isAsciiWs c then (if k = 0 then .eol i else dvScan ts k (i+1)) else .found i c

/-- Result of the default-literal quote scan. -/
inductive LitScanRes
  | closed (quotePos litEnd : Nat)
  | eol (finalCursor : Nat)
deriving DecidableEq, Repr

/-- AnchorParseDefaultLiteral scan (lines 340-363).  The cursor is
incremented at the top of each iteration, so the character immediately
after the opening quote is never tested as a closing quote; an escape
consumes an extra position without growing the literal end. -/
def litScan (ts : List Char) (q : Char) : Nat → Nat → Nat → LitScanRes
  | 0, cursor, _ => .eol cursor
  | k+1, cursor, e =>
    let c := cursor + 1
    match ts.get? c with
    | none => .eol c
    | some tok =>
      if tok = ESCAPE then litScan ts q k (c+1) e
      else if tok = q then .closed c e
      else litScan ts q k c (e+1)

/-- Result of the default-anchor index sub-scan (lines 410-419). -/
inductive IdxScanRes
  | close (cursor iEnd : Nat)
  | eol (cursor : Nat)
deriving DecidableEq, Repr

/-- Default-anchor index sub-scan: advance to the closing `]`, counting the
scanned digits, or fail at end of input. -/
def idxScan (ts : List Char) : Nat → Nat → Nat → IdxScanRes
  | 0, cursor, _ => .eol cursor
  | k+1, cursor, e =>
    let c := cursor + 1
    match ts.get? c with
    | none => .eol c
    | some tok =>
      if tok = INDEX_CLOSE then .close c e else idxScan ts k c (e+1)

/-- Result of the default-anchor main scan. -/
inductive DfaRes
  | delim (cursor e : Nat) (index : Option Nat)
  | eol (cursor : Nat)
  | idxEol (cursor : Nat)
  | idxBad (cursor : Nat)
  | panicked
deriving DecidableEq, Repr

/-- AnchorParseDefaultAnchor main `while` loop (lines 385-429): scan the
default anchor's name, handle an optional `[index]`, and stop at the first
delimiter (whitespace, pipe, anchor close, or any token once an index was
parsed).  The `panicked` outcome models the out-of-bounds slice
`tokens[index_begin..index_begin+1]` Rust performs when `[` is the last
character of the template. -/
def dfaScan (ts : List Char) : Nat → Nat → Nat → Option Nat → DfaRes
  | 0, cursor, _, _ => .eol cursor
  | k+1, cursor, e, index =>
    if cursor < ts.length then
      let c := cursor + 1
      match ts.get? c with
      | none => .eol c
      | some tok =>
        if index.isSome ∨ isAsciiWs tok ∨ tok = DEFAULT_PIPE ∨ tok = ANCHOR_CLOSE then
          .delim c e index
        else if tok = INDEX_OPEN then
          let c2 := c + 1
          if c2 = ts.length then .panicked
          else
            match idxScan ts (ts.length - c2) c2 (c2+1) with
            | .eol c3 => .idxEol c3
            | .close c3 iEnd =>
              match parseUsize (listSlice ts c2 iEnd) with
              | none => .idxBad c3
              | some n => dfaScan ts k c3 e (some n)
        else dfaScan ts k c (e+1) index
    else .eol cursor

/-- Result of the attribute-parameter quote-aware scan. -/
inductive ParamScanRes
  | closedAt (cursor pEnd : Nat)
  | unterminated (cursor pEnd : Nat)
  | quoteErr
deriving DecidableEq, Repr

/-- Attribute-parameter scan (`parse_impl` AttributeParse arm, lines
469-492): advance to an unquoted `)`, honoring escapes and matching
quotes; a mismatched quote inside an open quote is an error. -/
def paramScan (ts : List Char) : Nat → Nat → Nat → Option Char → ParamScanRes
  | 0, cursor, pEnd, _ => .unterminated cursor pEnd
  | k+1, cursor, pEnd, openQ =>
    match ts.get? cursor with
    | none => .unterminated cursor pEnd
    | some tok =>
      if tok = PARAM_CLOSE ∧ openQ = none then .closedAt cursor pEnd
      else if tok = ESCAPE then paramScan ts k (cursor+2) (pEnd+1) openQ
      else if tok = LITERAL_SINGLE_QUOTE ∨ tok = LITERAL_DOUBLE_QUOTE then
        match openQ with
        | some q => if tok = q then paramScan ts k (cursor+1) (pEnd+1) none else .quoteErr
        | none => paramScan ts k (cursor+1) (pEnd+1) (some tok)
      else paramScan ts k (cursor+1) (pEnd+1) openQ

/-- Result of the attribute-list scan. -/
inductive AttrScanRes
  | closed (cursor : Nat) (raw : List (List Char × Option (List Char)))
  | unclosed (start : Nat)
  | qErr (idx : Nat)
deriving DecidableEq, Repr

/-- AttributeParse main `while` loop (lines 440-497): collect raw
`(name, args)` pairs delimited by `|`, with optional parenthesized
arguments, until the closing `)` of the attribute list. -/
def attrScan (ts : List Char) :
    Nat → Nat → Nat → List (List Char × Option (List Char)) → AttrScanRes
  | 0, _, start, _ => .unclosed start
  | k+1, cursor, start, raw =>
    if cursor < ts.length then
      let c := cursor + 1
      match ts.get? c with
      | none => attrScan ts k c start raw
      | some tok =>
        if tok = ATTRIBUTE_CLOSE then
          .closed c (if start + 1 < c then raw ++ [(listSlice ts start c, none)] else raw)
        else if tok = ATTRIBUTE_DELIMETER ∨ tok = PARAM_OPEN then
          if c ≤ start + 1 then attrScan ts k c (c+1) raw
          else
            let attr := listSlice ts start c
            if tok = PARAM_OPEN then
              let pS := c + 1
              match paramScan ts (ts.length - pS) pS pS none with
              | .quoteErr => .qErr pS
              | .closedAt c2 pEnd =>
                attrScan ts k c2 c2 (raw ++ [(attr, some (listSlice ts pS pEnd))])
              | .unterminated c2 pEnd =>
                attrScan ts k c2 pS (raw ++ [(attr, some (listSlice ts pS pEnd))])
            else attrScan ts k c (c+1) (raw ++ [(attr, none)])
        else attrScan ts k c start raw
    else .unclosed start

/-- Sequence `Attribute::parse` over the raw pairs, propagating the first
error (the `?` in the `for (name, args) in raw_attrs` loop). -/
def parseRawAttrs : List (List Char × Option (List Char)) → Except AttrErr (List Attribute)
  | [] => Except.ok []
  | (name, args) :: rest =>
    match Attribute.parse name args with
    | Except.error e => Except.error e
    | Except.ok a =>
      match parseRawAttrs rest with
      | Except.error e => Except.error e
      | Except.ok as => Except.ok (a :: as)

def isAlignAttr (a : Attribute) : Bool :=
  match a.kind with
  | .align _ _ => true
  | _ => false

/-- The attribute sort of `parse_impl` (lines 513-522): `attrs.sort_by`
with a comparator returning `Less` whenever the left attribute is an
`Align`, `Greater` when only the right one is, and `Equal` otherwise.
Rust's `sort_by` is stable, and a stable sort under that comparator is
exactly the stable partition that moves the `Align` attributes to the
front while preserving the relative order of everything else. -/
def sortAlignFirst (attrs : List Attribute) : List Attribute :=
  attrs.filter isAlignAttr ++ attrs.filter fun a => !isAlignAttr a

/-! ### The state machine -/

/-- One invocation of `parse_impl` either completes the parse, fails, or
performs exactly one recursive call with an updated state. -/
inductive StepResult
  | done (anchors : List Anchor)
  | fail (e : PErr)
  | next (st : ParseState) (anchors : List Anchor)
deriving DecidableEq, Repr

/-- Name-accumulation fragment of the AnchorParseBase arm: the scanned
characters with whitespace skipped are pushed onto the anchor's name. -/
def accumName (a : Anchor) (ts : List Char) (begin stop : Nat) : List Char :=
  a.name ++ (listSlice ts begin stop).filter fun c => !isAsciiWs c

/-- One step of `parse_impl` (`parse/mod.rs` lines 110-536).  Each `match`
arm mirrors the corresponding `ParseStateMode` arm of the source; the
scanning loops are the helpers above, called with the exact iteration
count of the source loop. -/
def step (st : ParseState) (anchors : List Anchor) : StepResult :=
  let ts := st.tokens
  let len := ts.length
  match st.mode with
  | .base =>
    match baseFind ts (len - st.cursor) st.cursor with
    | none => .done anchors
    | some (i, c) =>
      if c = ESCAPE then .next { st with cursor := i, mode := .escaping } anchors
      else
        .next { st with cursor := i, mode := .anchorBegin,
                        bound_anchor := some { start := i } } anchors
  | .escaping =>
    let c1 := st.cursor + 1
    if ts.get? c1 = none then .fail (.parse ⟨.missingEscapee, c1 - 1⟩)
    else .next { st with cursor := c1 + 1, mode := .base } anchors
  | .anchorBegin =>
    -- The whitespace loop at lines 149-159 tests the fixed position
    -- `tokens[cursor]` and can only reassign `cursor` to its own initial
    -- value, so it never changes the state and is omitted.
    let c1 := st.cursor + 1
    match st.bound_anchor with
    | none =>
      if ts.get? c1 = some REQUIRED then .fail .unexpected
      else
        .next { st with cursor := c1,
                        mode := if ts.get? c1 = some ATTRIBUTE_OPEN then .attributeParse
                                else .anchorParseBase } anchors
    | some a =>
      let (a2, c2) := if ts.get? c1 = some REQUIRED
        then ({ a with required := true }, c1 + 1) else (a, c1)
      .next { st with cursor := c2,
                      mode := if ts.get? c2 = some ATTRIBUTE_OPEN then .attributeParse
                              else .anchorParseBase,
                      bound_anchor := some a2 } anchors
  | .anchorParseBase =>
    match st.bound_anchor with
    | none => .fail .unexpected
    | some a =>
      let begin := st.cursor
      match apbFind ts (len - st.cursor) st.cursor with
      | none =>
        -- The loop completes without a break: `parse_impl` recurses with
        -- the mode unchanged (the non-termination of the source on
        -- unclosed anchors).
        .next { st with cursor := if st.cursor < len then len - 1 else st.cursor } anchors
      | some i =>
        if ts.get? i = some INDEX_OPEN then
          let name2 := accumName a ts begin i
          let prev := ts.get? (i - 1)
          if name2.isEmpty || (match name2.getLast? with
              | none => false
              | some cc => decide (some cc ≠ prev)) then
            .fail (.parse ⟨.invalidIndexingOperation, i - 1⟩)
          else
            .next { st with cursor := i, mode := .anchorParseIndex,
                            bound_anchor := some { a with name := name2 } } anchors
        else if ts.get? i = some ANCHOR_CLOSE then
          let name2 := accumName a ts begin i
          if (name2.isEmpty ∨ ¬name_is_valid name2) ∧ a.defaults.isEmpty then
            .fail (.parse ⟨.invalidAnchorName, i - 1⟩)
          else
            .next { st with cursor := i, mode := .base, bound_anchor := none }
              (anchors ++ [{ a with name := name2, «end» := i + 1 }])
        else if ts.get? i = some DEFAULT_PIPE then
          let name2 := accumName a ts begin i
          let nextPipe := ts.get? (i + 1) = some DEFAULT_PIPE
          if name2.isEmpty ∨ ¬nextPipe then
            .fail (.parse ⟨.invalidDefaultValueOperation, i⟩)
          else
            .next { st with cursor := i + 1, mode := .anchorParseDefaultValue,
                            bound_anchor := some { a with name := name2 } } anchors
        else
          .next { st with cursor := i, mode := .anchorParseDefaultLiteral } anchors
  | .anchorParseIndex =>
    match st.bound_anchor with
    | none => .fail .unexpected
    | some a =>
      let begin := st.cursor + 1
      let (cursorF, digitsEnd) :=
        match idxFind ts (len - begin) begin with
        | some j => (j + 1, j)
        | none => ((if begin < len then len - 1 else begin), len)
      match parseUsize (listSlice ts begin digitsEnd) with
      | none => .fail (.parse ⟨.invalidIndex, cursorF - 1⟩)
      | some n =>
        .next { st with cursor := cursorF, mode := .anchorParseBase,
                        bound_anchor := some { a with index := some n } } anchors
  | .anchorParseDefaultValue =>
    if st.bound_anchor.elim false (·.required) then
      .fail (.parse ⟨.defaultDisallowedWithRequired, st.cursor - 1⟩)
    else
      let c1 := st.cursor + 1
      match dvScan ts (len - c1) c1 with
      | .eol fc => .fail (.parse ⟨.defaultParsingEol, fc - 1⟩)
      | .found j c =>
        if c = LITERAL_SINGLE_QUOTE ∨ c = LITERAL_DOUBLE_QUOTE then
          .next { st with cursor := j - 1, mode := .anchorParseDefaultLiteral } anchors
        else if name_is_valid [c] then
          .next { st with cursor := j - 1, mode := .anchorParseDefaultAnchor } anchors
        else .fail (.parse ⟨.defaultParsingDisallowedChar, j - 1⟩)
  | .anchorParseDefaultLiteral =>
    let j := wsSkip ts (len - st.cursor) st.cursor
    match ts.get? j with
    | none => .fail .unexpected
    | some openingQuote =>
      let begin := j + 1
      match litScan ts openingQuote (len - begin) begin (begin + 1) with
      | .eol fc => .fail (.parse ⟨.defaultStrLiteralMissingClosingQuote, fc - 1⟩)
      | .closed qPos litEnd =>
        match st.bound_anchor with
        | none => .fail .unexpected
        | some a =>
          .next { st with cursor := qPos + 1, mode := .anchorParseBase,
                          bound_anchor := some { a with
                            defaults := a.defaults
                              ++ [.literal (listSlice ts begin litEnd)] } } anchors
  | .anchorParseDefaultAnchor =>
    let j := wsSkip ts (len - (st.cursor + 1)) (st.cursor + 1)
    let begin := j
    match dfaScan ts (len - j) j (begin + 1) none with
    | .panicked => .fail .panicked
    | .eol fc => .fail (.parse ⟨.defaultParsingEol, fc - 1⟩)
    | .idxEol fc => .fail (.parse ⟨.indexParsingEol, fc - 1⟩)
    | .idxBad fc => .fail (.parse ⟨.invalidIndex, fc - 1⟩)
    | .delim c e index =>
      let name := listSlice ts begin e
      if ¬name_is_valid name then .fail (.parse ⟨.invalidAnchorName, c - 1⟩)
      else
        match st.bound_anchor with
        | none => .fail .unexpected
        | some a =>
          .next { st with cursor := c, mode := .anchorParseBase,
                          bound_anchor := some { a with
                            defaults := a.defaults ++ [.anchor name index] } } anchors
  | .attributeParse =>
    let c1 := st.cursor + 1
    match attrScan ts (len - c1) c1 c1 [] with
    | .unclosed s => .fail (.parse ⟨.attributeUnclosed, s⟩)
    | .qErr i => .fail (.parse ⟨.stringParameterMissingClosingQuote, i⟩)
    | .closed c raw =>
      let c2 := c + 1
      if ts.get? c2 ≠ some ATTRIBUTE_END then .fail (.parse ⟨.attributeEnd, c2 - 1⟩)
      else
        match parseRawAttrs raw with
        | Except.error e => .fail (.attr e)
        | Except.ok attrs =>
          match st.bound_anchor with
          | none => .fail .unexpected
          | some a =>
            .next { st with cursor := c2 + 1, mode := .anchorParseBase,
                            bound_anchor := some { a with
                              attributes := sortAlignFirst attrs } } anchors

/-- Outcome of running the machine with a fuel budget: one unit of fuel
per `parse_impl` invocation. -/
inductive ParseOutcome
  | ok (anchors : List Anchor)
  | fail (e : PErr)
  | outOfFuel
deriving DecidableEq, Repr

def parseImpl : Nat → ParseState → List Anchor → ParseOutcome
  | 0, _, _ => .outOfFuel
  | fuel+1, st, anchors =>
    match step st anchors with
    | .done as => .ok as
    | .fail e => .fail e
    | .next st2 as => parseImpl fuel st2 as

/-- Embeds `parse` (`parse/mod.rs` lines 94-107): run the machine from the
initial state. -/
def parseAnchors (fuel : Nat) (template : List Char) : ParseOutcome :=
  parseImpl fuel
    { cursor := 0, tokens := template, mode := .base, bound_anchor := none } []

/-! ### Output template construction (`src/template/mod.rs`)

`OutputTemplate::parse` walks **byte** indices (`template.len()` and
`&template[a..b]` on `&str`) while the anchors carry **character** indices
from the parser, so the byte structure of the template matters.  Byte
positions and byte slicing of a `List Char` are modelled below; a slice at
a position that is not a character boundary (a Rust panic) yields
`none`. -/

/-- UTF-8 encoded length of one character. -/
def charUtf8Len (c : Char) : Nat :=
  if c.toNat < 128 then 1
  else if c.toNat < 2048 then 2
  else if c.toNat < 65536 then 3
  else 4

/-- Byte length of a string (`str::len`). -/
def byteLen (s : List Char) : Nat := (s.map charUtf8Len).sum

/-- Drop the first `n` bytes; `none` when `n` is not a character
boundary. -/
def byteDrop : List Char → Nat → Option (List Char)
  | s, 0 => some s
  | [], _+1 => none
  | c :: rest, n+1 =>
    if charUtf8Len c ≤ n + 1 then byteDrop rest (n + 1 - charUtf8Len c) else none

/-- Take the first `n` bytes; `none` when `n` is not a character
boundary. -/
def byteTake : List Char → Nat → Option (List Char)
  | _, 0 => some []
  | [], _+1 => none
  | c :: rest, n+1 =>
    if charUtf8Len c ≤ n + 1 then
      (byteTake rest (n + 1 - charUtf8Len c)).map (c :: ·)
    else none

/-- Rust `&template[a..b]`: `none` models the slicing panics (reversed
range or non-boundary index). -/
def byteSlice (s : List Char) (a b : Nat) : Option (List Char) :=
  if a ≤ b then (byteDrop s a).bind fun t => byteTake t (b - a)
  else none

/-- `InterpolationTarget` from `src/template/mod.rs`. -/
inductive InterpolationTarget
  | literal (v : List Char)
  | anchor (a : Anchor)
deriving DecidableEq, Repr

/-- `OutputTemplate` from `src/template/mod.rs`. -/
structure OutputTemplate where
  targets : List InterpolationTarget
deriving DecidableEq, Repr

/-- State of the segmentation loops of `OutputTemplate::parse`. -/
structure SegState where
  targets : List InterpolationTarget
  leftCursor : Nat
  rightCursor : Nat
deriving DecidableEq, Repr

/-- Inner loop of `OutputTemplate::parse` (lines 43-55): `right_cursor`
walks the byte indices; at `right_cursor = anchor.start` the pending
literal (if non-empty) and the anchor are pushed and both cursors jump to
`anchor.end`.  `none` models the slicing panic. -/
def segInner (template : List Char) (a : Anchor) :
    Nat → Nat → SegState → Option SegState
  | 0, _, st => some st
  | k+1, i, st =>
    let st1 := { st with rightCursor := i }
    if st1.rightCursor = a.start then
      if st1.leftCursor ≠ st1.rightCursor then
        match byteSlice template st1.leftCursor st1.rightCursor with
        | none => none
        | some sec =>
          segInner template a k (i+1)
            { targets := st1.targets ++ [.literal sec, .anchor a],
              leftCursor := a.«end», rightCursor := a.«end» }
      else
        segInner template a k (i+1)
          { targets := st1.targets ++ [.anchor a],
            leftCursor := a.«end», rightCursor := a.«end» }
    else segInner template a k (i+1) st1

/-- Outer loop of `OutputTemplate::parse`: one inner scan per anchor, each
over byte indices `left_cursor..template.len()`. -/
def segOuter (template : List Char) : List Anchor → SegState → Option SegState
  | [], st => some st
  | a :: rest, st =>
    match segInner template a (byteLen template - st.leftCursor) st.leftCursor st with
    | none => none
    | some st2 => segOuter template rest st2

/-- The trailing-literal push of `OutputTemplate::parse` (lines 57-62). -/
def segFinish (template : List Char) (st : SegState) : Option (List InterpolationTarget) :=
  if st.rightCursor ≠ byteLen template then
    match byteSlice template st.leftCursor (byteLen template) with
    | none => none
    | some sec =>
      some (if ¬sec.isEmpty then st.targets ++ [.literal sec] else st.targets)
  else some st.targets

/-- Failure modes of `OutputTemplate::parse`. -/
inductive TplErr
  | parseFail (e : PErr)
  | panicked
  | outOfFuel
deriving DecidableEq, Repr

/-- Embeds `OutputTemplate::parse` (`src/template/mod.rs` lines 33-64):
parse the anchors, then tile the template into literal and anchor
segments. -/
def OutputTemplate.parse (fuel : Nat) (template : List Char) :
    Except TplErr OutputTemplate :=
  match parseAnchors fuel template with
  | .outOfFuel => Except.error .outOfFuel
  | .fail e => Except.error (.parseFail e)
  | .ok anchors =>
    match segOuter template anchors { targets := [], leftCursor := 0, rightCursor := 0 } with
    | none => Except.error .panicked
    | some st =>
      match segFinish template st with
      | none => Except.error .panicked
      | some targets => Except.ok ⟨targets⟩

/-! ### Transform engine (`src/template/mod.rs` lines 71-126) -/

/-- The per-line interpolation map (`HashMap<&str, Vec<&str>>`): a lookup
function from capture name to the ordered list of matched values. -/
def InterpMap : Type := List Char → Option (List (List Char))

/-- The value lookup used for primary anchors and anchor defaults:
`interpolation_map.get(name).and_then(|vals| vals.get(index))`. -/
def resolve (imap : InterpMap) (name : List Char) (index : Nat) : Option (List Char) :=
  (imap name).bind fun vals => vals.get? index

/-- Push a value with the anchor's attributes applied when present (the
repeated `if anchor.attributes.is_empty()` pattern in `transform`). -/
def applyIfAttrs (isMatch : List Char → List Char → Bool) (a : Anchor)
    (val : List Char) : List Char :=
  if a.attributes.isEmpty then val else Attribute.apply isMatch val a.attributes

/-- The defaults loop of `transform` (lines 95-120): a literal default
always wins and ends the loop; an anchor default wins exactly when its
lookup is present; when no default wins the anchor contributes nothing. -/
def defaultsOut (isMatch : List Char → List Char → Bool) (imap : InterpMap)
    (a : Anchor) : List DefaultValue → List Char
  | [] => []
  | .literal v :: _ => applyIfAttrs isMatch a v
  | .anchor name index :: rest =>
    match resolve imap name (index.getD 0) with
    | some val => applyIfAttrs isMatch a val
    | none => defaultsOut isMatch imap a rest

/-- The target loop of `transform`: literal segments are copied verbatim;
an anchor resolves name+index, falling back to the defaults chain, and a
`required` anchor with no match aborts the whole transform with an empty
string. -/
def transformGo (isMatch : List Char → List Char → Bool) (imap : InterpMap) :
    List InterpolationTarget → List Char → List Char
  | [], out => out
  | .literal v :: rest, out => transformGo isMatch imap rest (out ++ v)
  | .anchor a :: rest, out =>
    match resolve imap a.name (a.index.getD 0) with
    | some val => transformGo isMatch imap rest (out ++ applyIfAttrs isMatch a val)
    | none =>
      if a.required then []
      else transformGo isMatch imap rest (out ++ defaultsOut isMatch imap a a.defaults)

/-- Embeds `OutputTemplate::transform`. -/
def OutputTemplate.transform (tpl : OutputTemplate)
    (isMatch : List Char → List Char → Bool) (imap : InterpMap) : List Char :=
  transformGo isMatch imap tpl.targets []

/-- The source text a target accounts for, used to state the tiling
claim: a literal carries its own text, an anchor stands for the span
`[start, end)` of the original template. -/
def targetText (t : List Char) : InterpolationTarget → List Char
  | .literal v => v
  | .anchor a => listSlice t a.start a.«end»

def targetsText (t : List Char) (targets : List InterpolationTarget) : List Char :=
  (targets.map (targetText t)).flatten

/-! ### Specification-side definitions and invariant predicates -/

/-- Spec-side statement of the (amended) default-chain semantics, written
from the amended claim's words: defaults are evaluated left to right, a
literal default always yields its text, an anchor default yields its
looked-up value exactly when the lookup is present (even when that value
is the empty string), and an absent lookup falls through to the next
default.  Compared with `defaultsOut` (the embedding of the source) in the
C5 theorem. -/
def firstPresentDefault (imap : InterpMap) : List DefaultValue → Option (List Char)
  | [] => none
  | .literal v :: _ => some v
  | .anchor name index :: rest =>
    match resolve imap name (index.getD 0) with
    | some val => some val
    | none => firstPresentDefault imap rest

/-- The first comma-separated argument as `Attribute::parse` prepares it:
trimmed, then stripped of quotes. -/
def firstAlignArg (r : List Char) : List Char :=
  stripQuotes (trimList ((splitOnChar PARAM_DELIMETER r).headD []))

def exceptIsOk : Except AttrErr Attribute → Bool
  | Except.ok _ => true
  | Except.error _ => false

/-- A default value carries a non-empty text when it is a literal. -/
def litOkDV : DefaultValue → Prop
  | .literal v => v ≠ []
  | .anchor _ _ => True

def anchorDVOk (a : Anchor) : Prop := ∀ d ∈ a.defaults, litOkDV d

def anchorsDVOk (as : List Anchor) : Prop := ∀ a ∈ as, anchorDVOk a

/-- End position of the last anchor in the list, `lo` for the empty
list. -/
def lastEnd0 (lo : Nat) : List Anchor → Nat
  | [] => lo
  | a :: rest => lastEnd0 a.«end» rest

/-- The anchors carry sorted, non-overlapping, in-bounds spans starting at
or after `lo`. -/
def spansChain (len : Nat) : Nat → List Anchor → Prop
  | _, [] => True
  | lo, a :: rest => lo ≤ a.start ∧ a.start < a.«end» ∧ a.«end» ≤ len ∧ spansChain len a.«end» rest

/-- The machine invariant: accumulated anchors form a well-ordered span
chain with non-empty literal defaults, and the mode-specific relation
between the cursor, the bound anchor and the last pushed end holds. -/
def StInv (st : ParseState) (anchors : List Anchor) : Prop :=
  spansChain st.tokens.length 0 anchors ∧ anchorsDVOk anchors ∧
  match st.mode with
  | .base =>
    st.bound_anchor = none ∧ lastEnd0 0 anchors ≤ st.cursor + 1 ∧
      (lastEnd0 0 anchors = st.cursor + 1 → st.tokens.get? st.cursor = some ANCHOR_CLOSE)
  | .escaping => st.bound_anchor = none ∧ lastEnd0 0 anchors ≤ st.cursor
  | .anchorBegin =>
    ∃ b, st.bound_anchor = some b ∧ lastEnd0 0 anchors ≤ b.start ∧
      b.start = st.cursor ∧ b.start < st.tokens.length ∧ anchorDVOk b
  | _ =>
    ∃ b, st.bound_anchor = some b ∧ lastEnd0 0 anchors ≤ b.start ∧
      b.start ≤ st.cursor ∧ b.start < st.tokens.length ∧ anchorDVOk b

/-- The tiling a well-formed anchor list induces on `[lo, …)`: the gap
before each anchor as a literal, then the anchor itself. -/
def tile (t : List Char) (lo : Nat) : List Anchor → List InterpolationTarget
  | [] => []
  | a :: rest =>
    (if lo = a.start then [] else [.literal (listSlice t lo a.start)])
      ++ InterpolationTarget.anchor a :: tile t a.«end» rest

/-! ### Concrete inputs used by the per-claim theorems below -/

def noMatchFn : List Char → List Char → Bool := fun _ _ => false

def exC2tpl : OutputTemplate :=
  ⟨[.literal "log=".toList,
    .anchor { name := "foo".toList, start := 4, «end» := 10, required := true },
    .literal " out=".toList,
    .anchor { name := "bar".toList, start := 15, «end» := 20 }]⟩

def exC2anchor : Anchor := { name := "foo".toList, start := 4, «end» := 10, required := true }

def exC2map : InterpMap := fun n =>
  if n = "foo".toList then some []
  else if n = "bar".toList then some ["x".toList] else none

def exC3anchor : Anchor :=
  { name := [], start := 7, «end» := 15, defaults := [.literal "log".toList],
    required := true }

def exC3state : ParseState :=
  { cursor := 6, tokens := "\x7b!log||foo\x7d".toList, mode := .anchorParseDefaultValue,
    bound_anchor := some { name := "log".toList, start := 0, required := true } }

def exC4state : ParseState :=
  { cursor := 1, tokens := ['\x7b'], mode := .anchorParseBase,
    bound_anchor := some { start := 0 } }

def exC5map : InterpMap := fun n => if n = "b".toList then some [[]] else none

def exC5bMap : InterpMap := fun n =>
  if n = "foo".toList then some ["a".toList]
  else if n = "bar".toList then some ["b1".toList, "b2".toList] else none

def exC6map : InterpMap := fun n =>
  if n = "log".toList then some ["info".toList] else none

def exC6anchor : Anchor := { name := "log".toList, start := 7, «end» := 12 }

def exC7align : Attribute := { kind := .align .left 9 }

def exC7red : Attribute := { kind := .red }

def exC7map : InterpMap := fun n =>
  if n = "foo".toList then some ["bar".toList] else none

def exC9tpl : OutputTemplate := ⟨[.literal "\\\x7bfoo\x7d".toList]⟩

def exC1tpl : OutputTemplate :=
  ⟨[.literal "log=".toList,
    .anchor { name := "foo".toList, start := 4, «end» := 9 },
    .literal "!".toList]⟩

/-- Decidable equality for `Except`, so that concrete runs of
`OutputTemplate.parse` and `Attribute.parse` can be checked by
`decide`. -/
def exceptDecEq {ε α : Type _} [DecidableEq ε] [DecidableEq α] :
    DecidableEq (Except ε α)
  | Except.ok a, Except.ok b =>
    if h : a = b then isTrue (by rw [h]) else isFalse fun hh => h (Except.ok.inj hh)
  | Except.ok _, Except.error _ => isFalse fun hh => Except.noConfusion hh
  | Except.error _, Except.ok _ => isFalse fun hh => Except.noConfusion hh
  | Except.error e, Except.error f =>
    if h : e = f then isTrue (by rw [h]) else isFalse fun hh => h (Except.error.inj hh)

instance {ε α : Type _} [DecidableEq ε] [DecidableEq α] : DecidableEq (Except ε α) :=
  exceptDecEq

/-! ### General transform lemmas -/

/-- A required anchor whose lookup misses empties the whole transform,
wherever it sits in the target list. -/
lemma transformGo_required_miss (isM : List Char → List Char → Bool)
    (imap : InterpMap) (a : Anchor) (hreq : a.required = true)
    (hres : resolve imap a.name (a.index.getD 0) = none) :
    ∀ targets out, InterpolationTarget.anchor a ∈ targets →
      transformGo isM imap targets out = [] := by
  intro targets
  induction targets with
  | nil => intro out h; cases h
  | cons hd tl ih =>
    intro out hmem
    rcases List.mem_cons.mp hmem with heq | htl
    · cases heq
      simp only [transformGo, hres, hreq, if_true]
    · cases hd with
      | literal v => simpa only [transformGo] using ih (out ++ v) htl
      | anchor b =>
        simp only [transformGo]
        cases hb : resolve imap b.name (b.index.getD 0) with
        | some val => exact ih _ htl
        | none =>
          by_cases hbreq : b.required = true
          · simp [hbreq]
          · simp only [Bool.not_eq_true] at hbreq
            simp only [hbreq, if_false]
            exact ih _ htl

/-! ### C2 -/

/-- C2: for every successfully parsed output template and every
interpolation map, if some anchor target is required and its name+index
lookup (index defaulting to 0) yields no value, `transform` returns the
empty string, suppressing the entire output including literal segments
already emitted. -/
theorem C2_required_anchor_ghosts_line (fuel : Nat) (t : List Char)
    (tpl : OutputTemplate) (isM : List Char → List Char → Bool)
    (imap : InterpMap) (a : Anchor)
    (hp : OutputTemplate.parse fuel t = Except.ok tpl)
    (hmem : InterpolationTarget.anchor a ∈ tpl.targets)
    (hreq : a.required = true)
    (hres : resolve imap a.name (a.index.getD 0) = none) :
    tpl.transform isM imap = [] :=
  transformGo_required_miss isM imap a hreq hres tpl.targets [] hmem

/-- Witness for C2 at the spec's own example: template
"log=\x7b!foo\x7d out=\x7bbar\x7d" with map foo ↦ [], bar ↦ ["x"]. -/
theorem C2_required_anchor_ghosts_line_witness :
    OutputTemplate.parse 40 "log=\x7b!foo\x7d out=\x7bbar\x7d".toList = Except.ok exC2tpl ∧
    exC2tpl.transform noMatchFn exC2map = [] :=
  ⟨by decide,
   C2_required_anchor_ghosts_line 40 "log=\x7b!foo\x7d out=\x7bbar\x7d".toList exC2tpl
     noMatchFn exC2map exC2anchor (by decide) (by decide) (by decide) (by rfl)⟩

/-! ### C3 -/

/-- C3 counterexample: the template "\x7b!\"log\"\x7d" (inside
"output=…") parses successfully even though its anchor is required and
carries a quoted literal default, because a quoted default written
directly in the anchor body enters the literal state without passing the
required check; the claim that every required anchor with any default is
rejected at parse time is therefore false. -/
theorem C3_counterexample :
    parseAnchors 40 "output=\x7b!\"log\"\x7d".toList = ParseOutcome.ok [exC3anchor] ∧
    exC3anchor.required = true ∧ exC3anchor.defaults ≠ [] := by
  refine ⟨by decide, by decide, by decide⟩

/-- C3 (amended): the required-with-default rejection is enforced exactly
on the `||` default-chain path: whenever the machine enters the
AnchorParseDefaultValue state with a required bound anchor it fails with
the default-disallowed-with-required error at `cursor - 1`; in particular
"\x7b!log || foo\x7d" fails to parse with that error.  A quoted literal
default written directly in the anchor body (no `||`) bypasses the check,
so a successfully parsed required anchor can carry a literal default. -/
theorem C3_required_default_rejected_on_pipe_path :
    (∀ (st : ParseState) (a : Anchor) (anchors : List Anchor),
        st.mode = .anchorParseDefaultValue → st.bound_anchor = some a →
        a.required = true →
        step st anchors =
          .fail (.parse ⟨.defaultDisallowedWithRequired, st.cursor - 1⟩)) ∧
    parseAnchors 40 "\x7b!log || foo\x7d".toList =
      ParseOutcome.fail (.parse ⟨.defaultDisallowedWithRequired, 6⟩) := by
  constructor
  · intro st a anchors hmode hb hreq
    simp only [step, hmode, hb, Option.elim, hreq, if_true]
  · decide

/-- Witness for C3's amended theorem: a concrete machine state in the
AnchorParseDefaultValue mode with a required bound anchor steps to the
rejection. -/
theorem C3_required_default_rejected_on_pipe_path_witness :
    exC3state.mode = .anchorParseDefaultValue ∧
    step exC3state [] = .fail (.parse ⟨.defaultDisallowedWithRequired, 5⟩) :=
  ⟨by decide,
   C3_required_default_rejected_on_pipe_path.1 exC3state
     { name := "log".toList, start := 0, required := true } [] rfl rfl rfl⟩

/-! ### C4 -/

lemma exC4_step_loops : step exC4state [] = StepResult.next exC4state [] := by decide

lemma exC4_parseImpl_stuck : ∀ f, parseImpl f exC4state [] = ParseOutcome.outOfFuel := by
  intro f
  induction f with
  | zero => rfl
  | succ n ih => simp only [parseImpl, exC4_step_loops]; exact ih

/-- C4 (code bug): `parse` does not terminate on a template containing an
anchor-open with no matching close token.  On input "\x7b" the machine
reaches the AnchorParseBase state with the cursor on the final character
and steps to itself forever (the source recurses into `parse_impl` with an
unchanged state, overflowing the stack), so the run exhausts every fuel
budget instead of returning the unclosed-anchor error the source defines
(`ParseError::unclosed_anchor` is unreachable: inside the scanning loop
the cursor never leaves the token range). -/
theorem C4_parse_diverges_on_unclosed_anchor :
    ∀ fuel, parseAnchors fuel "\x7b".toList = ParseOutcome.outOfFuel := by
  intro fuel
  match fuel with
  | 0 => rfl
  | 1 => rfl
  | 2 => rfl
  | (n+3) =>
    have h : parseAnchors (n+3) "\x7b".toList = parseImpl (n+1) exC4state [] := rfl
    rw [h]
    exact exC4_parseImpl_stuck (n+1)

/-! ### C5 -/

/-- C5 counterexample: template "\x7ba || b || \"ZZ\"\x7d" with map
b ↦ [""] transforms to "" — the anchor default `b` resolves to a present
but empty value and wins, so the chain does not continue to the non-empty
literal "ZZ" as the claim requires. -/
theorem C5_counterexample :
    (OutputTemplate.parse 40 "\x7ba || b || \"ZZ\"\x7d".toList).toOption.map
        (fun tpl => tpl.transform noMatchFn exC5map) = some [] ∧
    ([] : List Char) ≠ "ZZ".toList := by
  exact ⟨by decide, by decide⟩

/-- C5 (amended): the defaults chain is evaluated left to right and the
first default that resolves to a *present* value wins: a literal default
always wins immediately, an anchor default wins exactly when its
name+index lookup is present — even when the looked-up value is the empty
string — and an absent lookup (missing key or out-of-range index) falls
through to the next default.  The source loop `defaultsOut` agrees with
the spec-side `firstPresentDefault` semantics, and the spec's example
"\x7bfoo[1]||bar[1]\x7d" with foo ↦ ["a"], bar ↦ ["b1","b2"] still
yields "b2". -/
theorem C5_first_present_default_wins :
    (∀ (isM : List Char → List Char → Bool) (imap : InterpMap) (a : Anchor)
        (ds : List DefaultValue),
        defaultsOut isM imap a ds =
          (firstPresentDefault imap ds).elim [] (applyIfAttrs isM a)) ∧
    (OutputTemplate.parse 40 "\x7bfoo[1]||bar[1]\x7d".toList).toOption.map
        (fun tpl => tpl.transform noMatchFn exC5bMap) = some "b2".toList := by
  constructor
  · intro isM imap a ds
    induction ds with
    | nil => rfl
    | cons d rest ih =>
      cases d with
      | literal v => rfl
      | anchor name index =>
        simp only [defaultsOut, firstPresentDefault]
        cases h : resolve imap name (index.getD 0) with
        | some val => rfl
        | none => exact ih
  · decide

/-! ### C6 -/

/-- C6: an anchor target whose name maps to a list with an element at the
anchor's index (default 0) interpolates exactly that element, with the
anchor's attributes applied when present; and the spec's example
"output=\x7blog\x7d" with log ↦ ["info"] transforms to "output=info". -/
theorem C6_anchor_interpolates_indexed_element :
    (∀ (isM : List Char → List Char → Bool) (imap : InterpMap) (a : Anchor)
        (rest : List InterpolationTarget) (out v : List Char),
        resolve imap a.name (a.index.getD 0) = some v →
        transformGo isM imap (InterpolationTarget.anchor a :: rest) out =
          transformGo isM imap rest (out ++ applyIfAttrs isM a v)) ∧
    (∀ isM, (OutputTemplate.parse 40 "output=\x7blog\x7d".toList).toOption.map
        (fun tpl => tpl.transform isM exC6map) = some "output=info".toList) := by
  constructor
  · intro isM imap a rest out v hres
    simp only [transformGo, hres]
  · intro isM; rfl

/-- Witness for C6: the first conjunct applied at the example anchor and
map. -/
theorem C6_anchor_interpolates_indexed_element_witness :
    resolve exC6map exC6anchor.name (exC6anchor.index.getD 0) = some "info".toList ∧
    transformGo noMatchFn exC6map [InterpolationTarget.anchor exC6anchor] "output=".toList =
      transformGo noMatchFn exC6map [] ("output=".toList ++
        applyIfAttrs noMatchFn exC6anchor "info".toList) :=
  ⟨by rfl,
   C6_anchor_interpolates_indexed_element.1 noMatchFn exC6map exC6anchor []
     "output=".toList "info".toList (by rfl)⟩

/-! ### C7 -/

/-- C7: align attributes are stably moved to the front of the attribute
list at parse time (relative order of non-align attributes preserved), so
transform output is invariant under writing an align attribute before or
after color/style attributes: the templates
"\x7b(lalign(9)|red):foo\x7d" and "\x7b(red|lalign(9)):foo\x7d" parse to
identical output templates, and "\x7b(lalign(9)):foo\x7d" with
foo ↦ ["bar"] yields "bar" padded to width 9. -/
theorem C7_align_sorted_first_invariance :
    (∀ (al : Attribute) (xs ys : List Attribute), isAlignAttr al = true →
        (∀ x ∈ xs, isAlignAttr x = false) → (∀ y ∈ ys, isAlignAttr y = false) →
        sortAlignFirst (xs ++ al :: ys) = al :: (xs ++ ys)) ∧
    OutputTemplate.parse 40 "\x7b(lalign(9)|red):foo\x7d".toList =
      OutputTemplate.parse 40 "\x7b(red|lalign(9)):foo\x7d".toList ∧
    (∀ isM, (OutputTemplate.parse 40 "\x7b(lalign(9)):foo\x7d".toList).toOption.map
        (fun tpl => tpl.transform isM exC7map) = some "bar      ".toList) := by
  refine ⟨?_, by decide, fun isM => rfl⟩
  intro al xs ys hal hxs hys
  have h1 : xs.filter isAlignAttr = [] := by
    apply List.filter_eq_nil_iff.mpr
    intro x hx; simp [hxs x hx]
  have h2 : ys.filter isAlignAttr = [] := by
    apply List.filter_eq_nil_iff.mpr
    intro y hy; simp [hys y hy]
  have h3 : xs.filter (fun a => !isAlignAttr a) = xs := by
    apply List.filter_eq_self.mpr
    intro x hx; simp [hxs x hx]
  have h4 : ys.filter (fun a => !isAlignAttr a) = ys := by
    apply List.filter_eq_self.mpr
    intro y hy; simp [hys y hy]
  simp [sortAlignFirst, List.filter_append, h1, h2, h3, h4, hal]

/-- Witness for C7's first conjunct: moving `lalign(9)` from after `red`
to the front. -/
theorem C7_align_sorted_first_invariance_witness :
    isAlignAttr exC7align = true ∧
    sortAlignFirst [exC7red, exC7align] = [exC7align, exC7red] :=
  ⟨by decide,
   C7_align_sorted_first_invariance.1 exC7align [exC7red] [] (by decide)
     (by decide) (by decide)⟩

/-! ### C8 -/

/-- C8 counterexample: `Attribute::parse` on an align variant accepts a
width of 0 (not a positive integer) and accepts more than one argument
(the extras are silently ignored), so the claimed "exactly one positive
integer argument" characterization is false. -/
theorem C8_counterexample :
    Attribute.parse "lalign".toList (some "0".toList) =
      Except.ok { kind := .align .left 0 } ∧
    Attribute.parse "lalign".toList (some "3,4".toList) =
      Except.ok { kind := .align .left 3 } := by
  exact ⟨by decide, by decide⟩

lemma splitOnChar_ne_nil (sep : Char) (r : List Char) : splitOnChar sep r ≠ [] := by
  cases r with
  | nil => simp [splitOnChar]
  | cons c rest =>
    simp only [splitOnChar]
    cases h : splitOnChar sep rest with
    | nil => simp
    | cons p ps =>
      by_cases hc : c = sep <;> simp [hc]

lemma attrParse_some_lalign (r : List Char) :
    Attribute.parse "lalign".toList (some r) =
      attrKindOf "lalign".toList
        ((splitOnChar PARAM_DELIMETER r).map fun a => stripQuotes (trimList a)) none := rfl

lemma attrParse_some_ralign (r : List Char) :
    Attribute.parse "ralign".toList (some r) =
      attrKindOf "ralign".toList
        ((splitOnChar PARAM_DELIMETER r).map fun a => stripQuotes (trimList a)) none := rfl

lemma attrParse_some_calign (r : List Char) :
    Attribute.parse "calign".toList (some r) =
      attrKindOf "calign".toList
        ((splitOnChar PARAM_DELIMETER r).map fun a => stripQuotes (trimList a)) none := rfl

lemma attrKindOf_lalign (w : List Char) (ws : List (List Char)) (mm : Option (List Char)) :
    attrKindOf "lalign".toList (w :: ws) mm =
      (match parseUsize w with
        | none => Except.error AttrErr.alignWidthNotNumber
        | some width => Except.ok ⟨AttributeKind.align Alignment.left width, mm⟩) := rfl

lemma attrKindOf_ralign (w : List Char) (ws : List (List Char)) (mm : Option (List Char)) :
    attrKindOf "ralign".toList (w :: ws) mm =
      (match parseUsize w with
        | none => Except.error AttrErr.alignWidthNotNumber
        | some width => Except.ok ⟨AttributeKind.align Alignment.right width, mm⟩) := rfl

lemma attrKindOf_calign (w : List Char) (ws : List (List Char)) (mm : Option (List Char)) :
    attrKindOf "calign".toList (w :: ws) mm =
      (match parseUsize w with
        | none => Except.error AttrErr.alignWidthNotNumber
        | some width => Except.ok ⟨AttributeKind.align Alignment.center width, mm⟩) := rfl

/-- C8 (amended): `Attribute::parse` on an align variant name (lalign,
ralign, calign) succeeds exactly when an argument string is present and
its first comma-separated piece — trimmed and stripped of quotes — parses
as a non-negative integer (`usize`); zero is accepted and any additional
arguments are ignored, while an absent argument list or a first argument
that does not parse is an error. -/
theorem C8_align_argument_characterization :
    ∀ raw : Option (List Char),
      exceptIsOk (Attribute.parse "lalign".toList raw) =
        (raw.elim false fun r => (parseUsize (firstAlignArg r)).isSome) ∧
      exceptIsOk (Attribute.parse "ralign".toList raw) =
        (raw.elim false fun r => (parseUsize (firstAlignArg r)).isSome) ∧
      exceptIsOk (Attribute.parse "calign".toList raw) =
        (raw.elim false fun r => (parseUsize (firstAlignArg r)).isSome) := by
  intro raw
  cases raw with
  | none => exact ⟨rfl, rfl, rfl⟩
  | some r =>
    obtain ⟨p, ps, hsplit⟩ :
        ∃ p ps, splitOnChar PARAM_DELIMETER r = p :: ps := by
      cases h : splitOnChar PARAM_DELIMETER r with
      | nil => exact absurd h (splitOnChar_ne_nil _ r)
      | cons p ps => exact ⟨p, ps, rfl⟩
    have harg : firstAlignArg r = stripQuotes (trimList p) := by
      simp [firstAlignArg, hsplit]
    refine ⟨?_, ?_, ?_⟩
    · rw [attrParse_some_lalign, hsplit, List.map_cons, attrKindOf_lalign]
      simp only [Option.elim]
      rw [harg]
      cases hw : parseUsize (stripQuotes (trimList p)) <;> simp [exceptIsOk]
    · rw [attrParse_some_ralign, hsplit, List.map_cons, attrKindOf_ralign]
      simp only [Option.elim]
      rw [harg]
      cases hw : parseUsize (stripQuotes (trimList p)) <;> simp [exceptIsOk]
    · rw [attrParse_some_calign, hsplit, List.map_cons, attrKindOf_calign]
      simp only [Option.elim]
      rw [harg]
      cases hw : parseUsize (stripQuotes (trimList p)) <;> simp [exceptIsOk]

/-! ### Scanner specification lemmas -/

lemma baseFind_spec (ts : List Char) :
    ∀ k i j c, baseFind ts k i = some (j, c) →
      i ≤ j ∧ ts.get? j = some c ∧ (c = ESCAPE ∨ c = ANCHOR_OPEN) := by
  intro k
  induction k with
  | zero => intro i j c h; simp [baseFind] at h
  | succ n ih =>
    intro i j c h
    cases hg : ts.get? i with
    | none => simp only [baseFind, hg] at h; cases h
    | some ch =>
      simp only [baseFind, hg] at h
      by_cases h1 : ch = ESCAPE
      · rw [if_pos h1] at h
        cases h
        exact ⟨le_refl _, by rw [hg], Or.inl h1⟩
      · rw [if_neg h1] at h
        by_cases h2 : ch = ANCHOR_OPEN
        · rw [if_pos h2] at h
          cases h
          exact ⟨le_refl _, by rw [hg], Or.inr h2⟩
        · rw [if_neg h2] at h
          obtain ⟨hle, hj, hc⟩ := ih (i+1) j c h
          exact ⟨by omega, hj, hc⟩

lemma get?_some_lt {ts : List Char} {i : Nat} {c : Char} (h : ts.get? i = some c) :
    i < ts.length := by
  by_contra hlt
  rw [List.get?_eq_none.mpr (by omega)] at h
  cases h

lemma apbFind_spec (ts : List Char) :
    ∀ k i j, apbFind ts k i = some j → i ≤ j ∧ j < ts.length := by
  intro k
  induction k with
  | zero => intro i j h; simp [apbFind] at h
  | succ n ih =>
    intro i j h
    cases hg : ts.get? i with
    | none => simp only [apbFind, hg] at h; cases h
    | some ch =>
      simp only [apbFind, hg] at h
      by_cases h1 : ch = INDEX_OPEN ∨ ch = ANCHOR_CLOSE ∨ ch = DEFAULT_PIPE
          ∨ ch = LITERAL_DOUBLE_QUOTE ∨ ch = LITERAL_SINGLE_QUOTE
      · rw [if_pos h1] at h
        cases h
        exact ⟨le_refl _, get?_some_lt hg⟩
      · rw [if_neg h1] at h
        obtain ⟨hle, hlt⟩ := ih (i+1) j h
        exact ⟨by omega, hlt⟩

lemma idxFind_spec (ts : List Char) :
    ∀ k i j, idxFind ts k i = some j → i ≤ j ∧ j < ts.length := by
  intro k
  induction k with
  | zero => intro i j h; simp [idxFind] at h
  | succ n ih =>
    intro i j h
    cases hg : ts.get? i with
    | none => simp only [idxFind, hg] at h; cases h
    | some ch =>
      simp only [idxFind, hg] at h
      by_cases h1 : ch = INDEX_CLOSE
      · rw [if_pos h1] at h
        cases h
        exact ⟨le_refl _, get?_some_lt hg⟩
      · rw [if_neg h1] at h
        obtain ⟨hle, hlt⟩ := ih (i+1) j h
        exact ⟨by omega, hlt⟩

lemma wsSkip_ge (ts : List Char) : ∀ k i, i ≤ wsSkip ts k i := by
  intro k
  induction k with
  | zero => intro i; simp [wsSkip]
  | succ n ih =>
    intro i
    cases hg : ts.get? i with
    | none => simp only [wsSkip, hg]; exact le_refl _
    | some c =>
      simp only [wsSkip, hg]
      by_cases hw : isAsciiWs c
      · rw [if_pos hw]
        by_cases hn : n = 0
        · simp [hn]
        · simp only [hn, if_false]
          exact le_trans (by omega) (ih (i+1))
      · rw [if_neg hw]

lemma dvScan_found_spec (ts : List Char) :
    ∀ k i j c, dvScan ts k i = .found j c → i ≤ j ∧ ts.get? j = some c := by
  intro k
  induction k with
  | zero => intro i j c h; simp [dvScan] at h
  | succ n ih =>
    intro i j c h
    cases hg : ts.get? i with
    | none => simp only [dvScan, hg] at h; cases h
    | some ch =>
      simp only [dvScan, hg] at h
      by_cases hw : isAsciiWs ch
      · rw [if_pos hw] at h
        by_cases hn : n = 0
        · rw [hn, if_pos rfl] at h
          cases h
        · simp only [hn, if_false] at h
          obtain ⟨hle, hj⟩ := ih (i+1) j c h
          exact ⟨by omega, hj⟩
      · rw [if_neg hw] at h
        cases h
        exact ⟨le_refl _, hg⟩

lemma litScan_closed_spec (ts : List Char) (q : Char) :
    ∀ k cur e qp e2, litScan ts q k cur e = .closed qp e2 →
      cur < qp ∧ qp < ts.length ∧ e ≤ e2 := by
  intro k
  induction k with
  | zero => intro cur e qp e2 h; simp [litScan] at h
  | succ n ih =>
    intro cur e qp e2 h
    cases hg : ts.get? (cur + 1) with
    | none => simp only [litScan, hg] at h; cases h
    | some tok =>
      simp only [litScan, hg] at h
      by_cases h1 : tok = ESCAPE
      · rw [if_pos h1] at h
        obtain ⟨ha, hb, hc⟩ := ih (cur + 2) e qp e2 h
        exact ⟨by omega, hb, hc⟩
      · rw [if_neg h1] at h
        by_cases h2 : tok = q
        · rw [if_pos h2] at h
          cases h
          exact ⟨by omega, get?_some_lt hg, le_refl _⟩
        · rw [if_neg h2] at h
          obtain ⟨ha, hb, hc⟩ := ih (cur + 1) (e + 1) qp e2 h
          exact ⟨by omega, hb, by omega⟩

lemma idxScan_close_spec (ts : List Char) :
    ∀ k cur e c e2, idxScan ts k cur e = .close c e2 → cur < c := by
  intro k
  induction k with
  | zero => intro cur e c e2 h; simp [idxScan] at h
  | succ n ih =>
    intro cur e c e2 h
    cases hg : ts.get? (cur + 1) with
    | none => simp only [idxScan, hg] at h; cases h
    | some tok =>
      simp only [idxScan, hg] at h
      by_cases h1 : tok = INDEX_CLOSE
      · rw [if_pos h1] at h; cases h; omega
      · rw [if_neg h1] at h
        have := ih (cur + 1) (e + 1) c e2 h
        omega

lemma dfaScan_delim_spec (ts : List Char) :
    ∀ k cur e idx c e2 i2, dfaScan ts k cur e idx = .delim c e2 i2 → cur < c := by
  intro k
  induction k with
  | zero => intro cur e idx c e2 i2 h; simp [dfaScan] at h
  | succ n ih =>
    intro cur e idx c e2 i2 h
    simp only [dfaScan] at h
    by_cases hlt : cur < ts.length
    · rw [if_pos hlt] at h
      cases hg : ts.get? (cur + 1) with
      | none => simp only [hg] at h; cases h
      | some tok =>
        simp only [hg] at h
        by_cases h1 : idx.isSome = true ∨ isAsciiWs tok = true ∨ tok = DEFAULT_PIPE
            ∨ tok = ANCHOR_CLOSE
        · rw [if_pos h1] at h; cases h; omega
        · rw [if_neg h1] at h
          by_cases h2 : tok = INDEX_OPEN
          · rw [if_pos h2] at h
            by_cases h3 : cur + 1 + 1 = ts.length
            · rw [if_pos h3] at h; cases h
            · rw [if_neg h3] at h
              cases hscan : idxScan ts (ts.length - (cur + 1 + 1)) (cur + 1 + 1)
                  (cur + 1 + 1 + 1) with
              | eol c3 => rw [hscan] at h; cases h
              | close c3 iEnd =>
                rw [hscan] at h
                simp only [] at h
                cases hp : parseUsize (listSlice ts (cur + 1 + 1) iEnd) with
                | none => rw [hp] at h; cases h
                | some nn =>
                  rw [hp] at h
                  have h4 := idxScan_close_spec ts _ _ _ _ _ hscan
                  have h5 := ih c3 e (some nn) c e2 i2 h
                  omega
          · rw [if_neg h2] at h
            have := ih (cur + 1) (e + 1) idx c e2 i2 h
            omega
    · rw [if_neg hlt] at h; cases h

lemma paramScan_cursor_ge (ts : List Char) :
    ∀ k cur pEnd oq res, paramScan ts k cur pEnd oq = res →
      (∀ c p, res = .closedAt c p → cur ≤ c) ∧
      (∀ c p, res = .unterminated c p → cur ≤ c) := by
  intro k
  induction k with
  | zero =>
    intro cur pEnd oq res h
    simp only [paramScan] at h
    subst h
    exact ⟨fun c p hh => (by cases hh), fun c p hh => (by cases hh; exact le_refl _)⟩
  | succ n ih =>
    intro cur pEnd oq res h
    cases hg : ts.get? cur with
    | none =>
      simp only [paramScan, hg] at h
      subst h
      exact ⟨fun c p hh => (by cases hh), fun c p hh => (by cases hh; exact le_refl _)⟩
    | some tok =>
      cases oq with
      | none =>
        simp only [paramScan, hg] at h
        by_cases h1 : tok = PARAM_CLOSE
        · rw [if_pos ⟨h1, trivial⟩] at h
          subst h
          exact ⟨fun c p hh => (by cases hh; exact le_refl _), fun c p hh => (by cases hh)⟩
        · rw [if_neg (fun hc => h1 hc.1)] at h
          by_cases h2 : tok = ESCAPE
          · rw [if_pos h2] at h
            obtain ⟨ha, hb⟩ := ih (cur + 2) (pEnd + 1) none res h
            exact ⟨fun c p hh => le_trans (by omega) (ha c p hh),
                   fun c p hh => le_trans (by omega) (hb c p hh)⟩
          · rw [if_neg h2] at h
            by_cases h3 : tok = LITERAL_SINGLE_QUOTE ∨ tok = LITERAL_DOUBLE_QUOTE
            · rw [if_pos h3] at h
              obtain ⟨ha, hb⟩ := ih (cur + 1) (pEnd + 1) (some tok) res h
              exact ⟨fun c p hh => le_trans (by omega) (ha c p hh),
                     fun c p hh => le_trans (by omega) (hb c p hh)⟩
            · rw [if_neg h3] at h
              obtain ⟨ha, hb⟩ := ih (cur + 1) (pEnd + 1) none res h
              exact ⟨fun c p hh => le_trans (by omega) (ha c p hh),
                     fun c p hh => le_trans (by omega) (hb c p hh)⟩
      | some qq =>
        simp only [paramScan, hg] at h
        rw [if_neg (fun hc => Option.noConfusion hc.2)] at h
        by_cases h2 : tok = ESCAPE
        · rw [if_pos h2] at h
          obtain ⟨ha, hb⟩ := ih (cur + 2) (pEnd + 1) (some qq) res h
          exact ⟨fun c p hh => le_trans (by omega) (ha c p hh),
                 fun c p hh => le_trans (by omega) (hb c p hh)⟩
        · rw [if_neg h2] at h
          by_cases h3 : tok = LITERAL_SINGLE_QUOTE ∨ tok = LITERAL_DOUBLE_QUOTE
          · rw [if_pos h3] at h
            by_cases h4 : tok = qq
            · rw [if_pos h4] at h
              obtain ⟨ha, hb⟩ := ih (cur + 1) (pEnd + 1) none res h
              exact ⟨fun c p hh => le_trans (by omega) (ha c p hh),
                     fun c p hh => le_trans (by omega) (hb c p hh)⟩
            · rw [if_neg h4] at h
              subst h
              exact ⟨fun c p hh => (by cases hh), fun c p hh => (by cases hh)⟩
          · rw [if_neg h3] at h
            obtain ⟨ha, hb⟩ := ih (cur + 1) (pEnd + 1) (some qq) res h
            exact ⟨fun c p hh => le_trans (by omega) (ha c p hh),
                   fun c p hh => le_trans (by omega) (hb c p hh)⟩

lemma attrScan_closed_spec (ts : List Char) :
    ∀ k cur start raw c raw2, attrScan ts k cur start raw = .closed c raw2 →
      cur < c := by
  intro k
  induction k with
  | zero => intro cur start raw c raw2 h; simp [attrScan] at h
  | succ n ih =>
    intro cur start raw c raw2 h
    simp only [attrScan] at h
    by_cases hlt : cur < ts.length
    · rw [if_pos hlt] at h
      cases hg : ts.get? (cur + 1) with
      | none =>
        simp only [hg] at h
        have := ih (cur + 1) start raw c raw2 h
        omega
      | some tok =>
        simp only [hg] at h
        by_cases h1 : tok = ATTRIBUTE_CLOSE
        · rw [if_pos h1] at h; cases h; omega
        · rw [if_neg h1] at h
          by_cases h2 : tok = ATTRIBUTE_DELIMETER ∨ tok = PARAM_OPEN
          · rw [if_pos h2] at h
            by_cases h3 : cur + 1 ≤ start + 1
            · rw [if_pos h3] at h
              have := ih (cur + 1) (cur + 1 + 1) raw c raw2 h
              omega
            · rw [if_neg h3] at h
              by_cases h4 : tok = PARAM_OPEN
              · rw [if_pos h4] at h
                cases hps : paramScan ts (ts.length - (cur + 1 + 1)) (cur + 1 + 1)
                    (cur + 1 + 1) none with
                | quoteErr => rw [hps] at h; cases h
                | closedAt c2 pEnd =>
                  rw [hps] at h
                  have hge := (paramScan_cursor_ge ts _ _ _ _ _ hps).1 c2 pEnd rfl
                  have := ih c2 c2 _ c raw2 h
                  omega
                | unterminated c2 pEnd =>
                  rw [hps] at h
                  have hge := (paramScan_cursor_ge ts _ _ _ _ _ hps).2 c2 pEnd rfl
                  have := ih c2 (cur + 1 + 1) _ c raw2 h
                  omega
              · rw [if_neg h4] at h
                have := ih (cur + 1) (cur + 1 + 1) _ c raw2 h
                omega
          · rw [if_neg h2] at h
            have := ih (cur + 1) start raw c raw2 h
            omega
    · rw [if_neg hlt] at h; cases h

/-! ### Span-chain lemmas -/

lemma lastEnd0_append (a : Anchor) :
    ∀ (l : List Anchor) (lo : Nat), lastEnd0 lo (l ++ [a]) = a.«end» := by
  intro l
  induction l with
  | nil => intro lo; rfl
  | cons b rest ih => intro lo; simpa [lastEnd0] using ih b.«end»

lemma spansChain_append (len : Nat) (a : Anchor) :
    ∀ (l : List Anchor) (lo : Nat), spansChain len lo l → lastEnd0 lo l ≤ a.start →
      a.start < a.«end» → a.«end» ≤ len → spansChain len lo (l ++ [a]) := by
  intro l
  induction l with
  | nil =>
    intro lo _ h1 h2 h3
    exact ⟨h1, h2, h3, trivial⟩
  | cons b rest ih =>
    intro lo hch h1 h2 h3
    obtain ⟨hb1, hb2, hb3, hb4⟩ := hch
    exact ⟨hb1, hb2, hb3, ih b.«end» hb4 h1 h2 h3⟩

lemma lastEnd0_le_len (len : Nat) :
    ∀ (l : List Anchor) (lo : Nat), spansChain len lo l → lo ≤ len →
      lastEnd0 lo l ≤ len := by
  intro l
  induction l with
  | nil => intro lo _ h; exact h
  | cons b rest ih =>
    intro lo hch _
    obtain ⟨_, _, hb3, hb4⟩ := hch
    exact ih b.«end» hb4 hb3

lemma listSlice_ne_nil (ts : List Char) (a b : Nat) (ha : a < ts.length)
    (hab : a < b) : listSlice ts a b ≠ [] := by
  intro hcon
  unfold listSlice at hcon
  rcases List.take_eq_nil_iff.mp hcon with h | h
  · omega
  · have := List.drop_eq_nil_iff_le.mp h
    omega

/-! ### Structural lemmas about `step` -/

lemma step_done_eq (st : ParseState) (anchors as : List Anchor)
    (h : step st anchors = StepResult.done as) : as = anchors := by
  obtain ⟨cur, ts, mode, ob⟩ := st
  cases mode <;> simp only [step] at h <;> (repeat' split at h) <;>
    ((cases h) <;> rfl)

lemma step_next_tokens (st st2 : ParseState) (anchors anchors2 : List Anchor)
    (h : step st anchors = StepResult.next st2 anchors2) : st2.tokens = st.tokens := by
  obtain ⟨cur, ts, mode, ob⟩ := st
  cases mode <;> simp only [step] at h <;> (repeat' split at h) <;>
    ((cases h) <;> rfl)

/-! ### Invariant preservation, one lemma per parser mode -/

lemma stepInv_base (cur : Nat) (ts : List Char) (ob : Option Anchor)
    (anchors anchors2 : List Anchor) (st2 : ParseState)
    (hchain : spansChain ts.length 0 anchors) (hdv : anchorsDVOk anchors)
    (hb : ob = none) (hle : lastEnd0 0 anchors ≤ cur + 1)
    (hcl : lastEnd0 0 anchors = cur + 1 → ts.get? cur = some ANCHOR_CLOSE)
    (h : step ⟨cur, ts, .base, ob⟩ anchors = StepResult.next st2 anchors2) :
    StInv st2 anchors2 := by
  cases hf : baseFind ts (ts.length - cur) cur with
  | none => simp only [step, hf] at h; cases h
  | some jc =>
    obtain ⟨j, c⟩ := jc
    simp only [step, hf] at h
    obtain ⟨hj, hgj, hc⟩ := baseFind_spec ts _ _ _ _ hf
    have hEj : lastEnd0 0 anchors ≤ j := by
      rcases Nat.lt_or_ge (lastEnd0 0 anchors) (cur + 1) with hlt | hge
      · omega
      · have heq : lastEnd0 0 anchors = cur + 1 := by omega
        have hclose := hcl heq
        have hne : j ≠ cur := by
          intro hj0
          subst hj0
          rw [hclose] at hgj
          injection hgj with hcc
          rcases hc with h1 | h1 <;> subst h1 <;> revert hcc <;> decide
        omega
    by_cases hesc : c = ESCAPE
    · rw [if_pos hesc] at h
      injection h with h1 h2
      subst h1; subst h2
      exact ⟨hchain, hdv, hb, show lastEnd0 0 anchors ≤ j by omega⟩
    · rw [if_neg hesc] at h
      injection h with h1 h2
      subst h1; subst h2
      refine ⟨hchain, hdv, { start := j }, rfl, hEj, rfl, get?_some_lt hgj, ?_⟩
      intro d hd
      cases hd

lemma stepInv_escaping (cur : Nat) (ts : List Char) (ob : Option Anchor)
    (anchors anchors2 : List Anchor) (st2 : ParseState)
    (hchain : spansChain ts.length 0 anchors) (hdv : anchorsDVOk anchors)
    (hb : ob = none) (hle : lastEnd0 0 anchors ≤ cur)
    (h : step ⟨cur, ts, .escaping, ob⟩ anchors = StepResult.next st2 anchors2) :
    StInv st2 anchors2 := by
  simp only [step] at h
  by_cases hg : ts.get? (cur + 1) = none
  · rw [if_pos hg] at h; cases h
  · rw [if_neg hg] at h
    injection h with h1 h2
    subst h1; subst h2
    exact ⟨hchain, hdv, hb, show lastEnd0 0 anchors ≤ cur + 1 + 1 + 1 by omega,
      fun heq => absurd (show lastEnd0 0 anchors = cur + 1 + 1 + 1 from heq) (by omega)⟩

lemma stepInv_anchorBegin (cur : Nat) (ts : List Char) (ob : Option Anchor)
    (anchors anchors2 : List Anchor) (st2 : ParseState) (b : Anchor)
    (hchain : spansChain ts.length 0 anchors) (hdv : anchorsDVOk anchors)
    (hob : ob = some b) (hEs : lastEnd0 0 anchors ≤ b.start)
    (hsc : b.start = cur) (hsl : b.start < ts.length) (hbdv : anchorDVOk b)
    (h : step ⟨cur, ts, .anchorBegin, ob⟩ anchors = StepResult.next st2 anchors2) :
    StInv st2 anchors2 := by
  subst hob
  simp only [step] at h
  by_cases hreq : ts.get? (cur + 1) = some REQUIRED
  · rw [if_pos hreq] at h
    by_cases hattr : ts.get? (cur + 1 + 1) = some ATTRIBUTE_OPEN
    · rw [if_pos hattr] at h
      injection h with h1 h2
      subst h1; subst h2
      exact ⟨hchain, hdv, { b with required := true }, rfl, hEs,
        show b.start ≤ cur + 1 + 1 by omega, show b.start < ts.length from hsl,
        fun d hd => hbdv d hd⟩
    · rw [if_neg hattr] at h
      injection h with h1 h2
      subst h1; subst h2
      exact ⟨hchain, hdv, { b with required := true }, rfl, hEs,
        show b.start ≤ cur + 1 + 1 by omega, show b.start < ts.length from hsl,
        fun d hd => hbdv d hd⟩
  · rw [if_neg hreq] at h
    by_cases hattr : ts.get? (cur + 1) = some ATTRIBUTE_OPEN
    · rw [if_pos hattr] at h
      injection h with h1 h2
      subst h1; subst h2
      exact ⟨hchain, hdv, b, rfl, hEs, show b.start ≤ cur + 1 by omega, hsl, hbdv⟩
    · rw [if_neg hattr] at h
      injection h with h1 h2
      subst h1; subst h2
      exact ⟨hchain, hdv, b, rfl, hEs, show b.start ≤ cur + 1 by omega, hsl, hbdv⟩

lemma stepInv_apb (cur : Nat) (ts : List Char) (ob : Option Anchor)
    (anchors anchors2 : List Anchor) (st2 : ParseState) (b : Anchor)
    (hchain : spansChain ts.length 0 anchors) (hdv : anchorsDVOk anchors)
    (hob : ob = some b) (hEs : lastEnd0 0 anchors ≤ b.start)
    (hsc : b.start ≤ cur) (hsl : b.start < ts.length) (hbdv : anchorDVOk b)
    (h : step ⟨cur, ts, .anchorParseBase, ob⟩ anchors = StepResult.next st2 anchors2) :
    StInv st2 anchors2 := by
  subst hob
  cases hf : apbFind ts (ts.length - cur) cur with
  | none =>
    simp only [step, hf] at h
    injection h with h1 h2
    subst h1; subst h2
    refine ⟨hchain, hdv, b, rfl, hEs, ?_, hsl, hbdv⟩
    show b.start ≤ (if cur < ts.length then ts.length - 1 else cur)
    by_cases hcl : cur < ts.length
    · rw [if_pos hcl]; omega
    · rw [if_neg hcl]; omega
  | some i =>
    obtain ⟨hij, hilen⟩ := apbFind_spec ts _ _ _ hf
    simp only [step, hf] at h
    by_cases h1 : ts.get? i = some INDEX_OPEN
    · rw [if_pos h1] at h
      split at h
      · cases h
      · injection h with ha hb2
        subst ha; subst hb2
        exact ⟨hchain, hdv, _, rfl, hEs, show b.start ≤ i by omega, hsl,
          fun d hd => hbdv d hd⟩
    · rw [if_neg h1] at h
      by_cases h2 : ts.get? i = some ANCHOR_CLOSE
      · rw [if_pos h2] at h
        split at h
        · cases h
        · injection h with ha hb2
          subst ha; subst hb2
          refine ⟨?_, ?_, rfl, ?_, fun _ => h2⟩
          · exact spansChain_append ts.length _ anchors 0 hchain hEs
              (show b.start < i + 1 by omega) (show i + 1 ≤ ts.length by omega)
          · intro a ha
            rcases List.mem_append.mp ha with hmem | hmem
            · exact hdv a hmem
            · rw [List.mem_singleton.mp hmem]
              exact fun d hd => hbdv d hd
          · rw [lastEnd0_append]
      · rw [if_neg h2] at h
        by_cases h3 : ts.get? i = some DEFAULT_PIPE
        · rw [if_pos h3] at h
          split at h
          · cases h
          · injection h with ha hb2
            subst ha; subst hb2
            exact ⟨hchain, hdv, _, rfl, hEs, show b.start ≤ i + 1 by omega, hsl,
              fun d hd => hbdv d hd⟩
        · rw [if_neg h3] at h
          injection h with ha hb2
          subst ha; subst hb2
          exact ⟨hchain, hdv, b, rfl, hEs, show b.start ≤ i by omega, hsl, hbdv⟩

lemma stepInv_idx (cur : Nat) (ts : List Char) (ob : Option Anchor)
    (anchors anchors2 : List Anchor) (st2 : ParseState) (b : Anchor)
    (hchain : spansChain ts.length 0 anchors) (hdv : anchorsDVOk anchors)
    (hob : ob = some b) (hEs : lastEnd0 0 anchors ≤ b.start)
    (hsc : b.start ≤ cur) (hsl : b.start < ts.length) (hbdv : anchorDVOk b)
    (h : step ⟨cur, ts, .anchorParseIndex, ob⟩ anchors = StepResult.next st2 anchors2) :
    StInv st2 anchors2 := by
  subst hob
  cases hf : idxFind ts (ts.length - (cur + 1)) (cur + 1) with
  | none =>
    simp only [step, hf] at h
    cases hp : parseUsize (listSlice ts (cur + 1) ts.length) with
    | none => simp only [hp] at h; cases h
    | some n =>
      simp only [hp] at h
      injection h with h1 h2
      subst h1; subst h2
      refine ⟨hchain, hdv, _, rfl, hEs, ?_, hsl, fun d hd => hbdv d hd⟩
      show b.start ≤ (if cur + 1 < ts.length then ts.length - 1 else cur + 1)
      by_cases hcl : cur + 1 < ts.length
      · rw [if_pos hcl]; omega
      · rw [if_neg hcl]; omega
  | some j =>
    obtain ⟨hj1, hj2⟩ := idxFind_spec ts _ _ _ hf
    simp only [step, hf] at h
    cases hp : parseUsize (listSlice ts (cur + 1) j) with
    | none => simp only [hp] at h; cases h
    | some n =>
      simp only [hp] at h
      injection h with h1 h2
      subst h1; subst h2
      exact ⟨hchain, hdv, _, rfl, hEs, show b.start ≤ j + 1 by omega, hsl,
        fun d hd => hbdv d hd⟩

lemma stepInv_dv (cur : Nat) (ts : List Char) (ob : Option Anchor)
    (anchors anchors2 : List Anchor) (st2 : ParseState) (b : Anchor)
    (hchain : spansChain ts.length 0 anchors) (hdv : anchorsDVOk anchors)
    (hob : ob = some b) (hEs : lastEnd0 0 anchors ≤ b.start)
    (hsc : b.start ≤ cur) (hsl : b.start < ts.length) (hbdv : anchorDVOk b)
    (h : step ⟨cur, ts, .anchorParseDefaultValue, ob⟩ anchors =
      StepResult.next st2 anchors2) :
    StInv st2 anchors2 := by
  subst hob
  simp only [step, Option.elim] at h
  by_cases hreq : b.required = true
  · rw [if_pos hreq] at h; cases h
  · rw [if_neg hreq] at h
    cases hdvs : dvScan ts (ts.length - (cur + 1)) (cur + 1) with
    | eol fc => simp only [hdvs] at h; cases h
    | found j c =>
      obtain ⟨hj1, hj2⟩ := dvScan_found_spec ts _ _ _ _ hdvs
      simp only [hdvs] at h
      by_cases h1 : c = LITERAL_SINGLE_QUOTE ∨ c = LITERAL_DOUBLE_QUOTE
      · rw [if_pos h1] at h
        injection h with ha hb2
        subst ha; subst hb2
        exact ⟨hchain, hdv, b, rfl, hEs, show b.start ≤ j - 1 by omega, hsl, hbdv⟩
      · rw [if_neg h1] at h
        by_cases h2 : name_is_valid [c] = true
        · rw [if_pos h2] at h
          injection h with ha hb2
          subst ha; subst hb2
          exact ⟨hchain, hdv, b, rfl, hEs, show b.start ≤ j - 1 by omega, hsl, hbdv⟩
        · rw [if_neg h2] at h; cases h

lemma stepInv_lit (cur : Nat) (ts : List Char) (ob : Option Anchor)
    (anchors anchors2 : List Anchor) (st2 : ParseState) (b : Anchor)
    (hchain : spansChain ts.length 0 anchors) (hdv : anchorsDVOk anchors)
    (hob : ob = some b) (hEs : lastEnd0 0 anchors ≤ b.start)
    (hsc : b.start ≤ cur) (hsl : b.start < ts.length) (hbdv : anchorDVOk b)
    (h : step ⟨cur, ts, .anchorParseDefaultLiteral, ob⟩ anchors =
      StepResult.next st2 anchors2) :
    StInv st2 anchors2 := by
  subst hob
  have hws : cur ≤ wsSkip ts (ts.length - cur) cur := wsSkip_ge ts _ cur
  cases hg : ts.get? (wsSkip ts (ts.length - cur) cur) with
  | none => simp only [step, hg] at h; cases h
  | some q =>
    cases hls : litScan ts q (ts.length - (wsSkip ts (ts.length - cur) cur + 1))
        (wsSkip ts (ts.length - cur) cur + 1)
        (wsSkip ts (ts.length - cur) cur + 1 + 1) with
    | eol fc => simp only [step, hg, hls] at h; cases h
    | closed qp e2 =>
      obtain ⟨hq1, hq2, hq3⟩ := litScan_closed_spec ts q _ _ _ _ _ hls
      simp only [step, hg, hls] at h
      injection h with ha hb2
      subst ha; subst hb2
      refine ⟨hchain, hdv, _, rfl, hEs, show b.start ≤ qp + 1 by omega, hsl, ?_⟩
      intro d hd
      rcases List.mem_append.mp hd with hmem | hmem
      · exact hbdv d hmem
      · rw [List.mem_singleton.mp hmem]
        exact listSlice_ne_nil ts _ _ (by omega) (by omega)

lemma stepInv_dfa (cur : Nat) (ts : List Char) (ob : Option Anchor)
    (anchors anchors2 : List Anchor) (st2 : ParseState) (b : Anchor)
    (hchain : spansChain ts.length 0 anchors) (hdv : anchorsDVOk anchors)
    (hob : ob = some b) (hEs : lastEnd0 0 anchors ≤ b.start)
    (hsc : b.start ≤ cur) (hsl : b.start < ts.length) (hbdv : anchorDVOk b)
    (h : step ⟨cur, ts, .anchorParseDefaultAnchor, ob⟩ anchors =
      StepResult.next st2 anchors2) :
    StInv st2 anchors2 := by
  subst hob
  have hws : cur + 1 ≤ wsSkip ts (ts.length - (cur + 1)) (cur + 1) :=
    wsSkip_ge ts _ (cur + 1)
  cases hdfa : dfaScan ts (ts.length - wsSkip ts (ts.length - (cur + 1)) (cur + 1))
      (wsSkip ts (ts.length - (cur + 1)) (cur + 1))
      (wsSkip ts (ts.length - (cur + 1)) (cur + 1) + 1) none with
  | panicked => simp only [step, hdfa] at h; cases h
  | eol fc => simp only [step, hdfa] at h; cases h
  | idxEol fc => simp only [step, hdfa] at h; cases h
  | idxBad fc => simp only [step, hdfa] at h; cases h
  | delim c e idx =>
    have hcc := dfaScan_delim_spec ts _ _ _ _ _ _ _ hdfa
    simp only [step, hdfa] at h
    split at h
    · cases h
    · injection h with ha hb2
      subst ha; subst hb2
      refine ⟨hchain, hdv, _, rfl, hEs, show b.start ≤ c by omega, hsl, ?_⟩
      intro d hd
      rcases List.mem_append.mp hd with hmem | hmem
      · exact hbdv d hmem
      · rw [List.mem_singleton.mp hmem]
        trivial

lemma stepInv_attr (cur : Nat) (ts : List Char) (ob : Option Anchor)
    (anchors anchors2 : List Anchor) (st2 : ParseState) (b : Anchor)
    (hchain : spansChain ts.length 0 anchors) (hdv : anchorsDVOk anchors)
    (hob : ob = some b) (hEs : lastEnd0 0 anchors ≤ b.start)
    (hsc : b.start ≤ cur) (hsl : b.start < ts.length) (hbdv : anchorDVOk b)
    (h : step ⟨cur, ts, .attributeParse, ob⟩ anchors = StepResult.next st2 anchors2) :
    StInv st2 anchors2 := by
  subst hob
  cases has : attrScan ts (ts.length - (cur + 1)) (cur + 1) (cur + 1) [] with
  | unclosed sidx => simp only [step, has] at h; cases h
  | qErr i => simp only [step, has] at h; cases h
  | closed c raw =>
    have hcc := attrScan_closed_spec ts _ _ _ _ _ _ has
    simp only [step, has] at h
    split at h
    · cases h
    · cases hpa : parseRawAttrs raw with
      | error e => simp only [hpa] at h; cases h
      | ok attrs =>
        simp only [hpa] at h
        injection h with ha hb2
        subst ha; subst hb2
        exact ⟨hchain, hdv, _, rfl, hEs, show b.start ≤ c + 1 + 1 by omega, hsl,
          fun d hd => hbdv d hd⟩

/-- One step of the machine preserves the invariant. -/
lemma step_next_inv (st st2 : ParseState) (anchors anchors2 : List Anchor)
    (hinv : StInv st anchors)
    (h : step st anchors = StepResult.next st2 anchors2) : StInv st2 anchors2 := by
  obtain ⟨cur, ts, mode, ob⟩ := st
  obtain ⟨hchain, hdv, hmode⟩ := hinv
  cases mode with
  | base =>
    obtain ⟨hb, hle, hcl⟩ := hmode
    exact stepInv_base cur ts ob anchors anchors2 st2 hchain hdv hb hle hcl h
  | escaping =>
    obtain ⟨hb, hle⟩ := hmode
    exact stepInv_escaping cur ts ob anchors anchors2 st2 hchain hdv hb hle h
  | anchorBegin =>
    obtain ⟨b, hob, hEs, hsc, hsl, hbdv⟩ := hmode
    exact stepInv_anchorBegin cur ts ob anchors anchors2 st2 b hchain hdv hob hEs
      hsc hsl hbdv h
  | anchorParseBase =>
    obtain ⟨b, hob, hEs, hsc, hsl, hbdv⟩ := hmode
    exact stepInv_apb cur ts ob anchors anchors2 st2 b hchain hdv hob hEs hsc hsl hbdv h
  | anchorParseIndex =>
    obtain ⟨b, hob, hEs, hsc, hsl, hbdv⟩ := hmode
    exact stepInv_idx cur ts ob anchors anchors2 st2 b hchain hdv hob hEs hsc hsl hbdv h
  | anchorParseDefaultValue =>
    obtain ⟨b, hob, hEs, hsc, hsl, hbdv⟩ := hmode
    exact stepInv_dv cur ts ob anchors anchors2 st2 b hchain hdv hob hEs hsc hsl hbdv h
  | anchorParseDefaultLiteral =>
    obtain ⟨b, hob, hEs, hsc, hsl, hbdv⟩ := hmode
    exact stepInv_lit cur ts ob anchors anchors2 st2 b hchain hdv hob hEs hsc hsl hbdv h
  | anchorParseDefaultAnchor =>
    obtain ⟨b, hob, hEs, hsc, hsl, hbdv⟩ := hmode
    exact stepInv_dfa cur ts ob anchors anchors2 st2 b hchain hdv hob hEs hsc hsl hbdv h
  | attributeParse =>
    obtain ⟨b, hob, hEs, hsc, hsl, hbdv⟩ := hmode
    exact stepInv_attr cur ts ob anchors anchors2 st2 b hchain hdv hob hEs hsc hsl hbdv h

/-- A successful run of the machine from an invariant state delivers a
well-ordered anchor list with non-empty literal defaults. -/
lemma parseImpl_ok_inv :
    ∀ (fuel : Nat) (st : ParseState) (anchors as : List Anchor), StInv st anchors →
      parseImpl fuel st anchors = ParseOutcome.ok as →
      spansChain st.tokens.length 0 as ∧ anchorsDVOk as := by
  intro fuel
  induction fuel with
  | zero => intro st anchors as _ h; cases h
  | succ n ih =>
    intro st anchors as hinv h
    simp only [parseImpl] at h
    cases hstep : step st anchors with
    | done as2 =>
      rw [hstep] at h
      injection h with h1
      subst h1
      rw [step_done_eq st anchors as2 hstep]
      exact ⟨hinv.1, hinv.2.1⟩
    | fail e => rw [hstep] at h; cases h
    | next st3 anchors3 =>
      rw [hstep] at h
      have hinv3 := step_next_inv st st3 anchors anchors3 hinv hstep
      have htok := step_next_tokens st st3 anchors anchors3 hstep
      have := ih st3 anchors3 as hinv3 h
      rwa [htok] at this

/-- The top-level parse of any template delivers sorted, non-overlapping,
in-bounds anchor spans and non-empty literal defaults. -/
lemma parseAnchors_ok_inv (fuel : Nat) (t : List Char) (as : List Anchor)
    (h : parseAnchors fuel t = ParseOutcome.ok as) :
    spansChain t.length 0 as ∧ anchorsDVOk as := by
  have hinv : StInv { cursor := 0, tokens := t, mode := .base, bound_anchor := none }
      ([] : List Anchor) := by
    refine ⟨trivial, ?_, rfl, ?_, ?_⟩
    · intro a ha; cases ha
    · show lastEnd0 0 [] ≤ 0 + 1
      simp [lastEnd0]
    · intro heq
      exact absurd heq (by simp [lastEnd0])
  exact parseImpl_ok_inv fuel _ [] as hinv h

/-! ### ASCII byte-slicing lemmas -/

lemma charUtf8Len_ascii {c : Char} (h : c.toNat < 128) : charUtf8Len c = 1 := by
  unfold charUtf8Len
  rw [if_pos h]

lemma byteLen_ascii : ∀ {t : List Char}, (∀ c ∈ t, c.toNat < 128) →
    byteLen t = t.length := by
  intro t
  induction t with
  | nil => intro _; rfl
  | cons c rest ih =>
    intro h
    rw [show byteLen (c :: rest) = charUtf8Len c + byteLen rest from by simp [byteLen]]
    rw [charUtf8Len_ascii (h c (List.mem_cons_self c rest)),
      ih fun x hx => h x (List.mem_cons_of_mem c hx)]
    simp
    omega

lemma byteDrop_ascii : ∀ (t : List Char) (a : Nat), (∀ c ∈ t, c.toNat < 128) →
    a ≤ t.length → byteDrop t a = some (t.drop a) := by
  intro t
  induction t with
  | nil =>
    intro a _ ha
    have : a = 0 := by simpa using ha
    subst this
    rfl
  | cons c rest ih =>
    intro a h ha
    cases a with
    | zero => rfl
    | succ m =>
      have hc : charUtf8Len c = 1 := charUtf8Len_ascii (h c (List.mem_cons_self c rest))
      show (if charUtf8Len c ≤ m + 1 then byteDrop rest (m + 1 - charUtf8Len c)
        else none) = some ((c :: rest).drop (m+1))
      rw [if_pos (by omega), hc]
      have h2 : m + 1 - 1 = m := by omega
      rw [h2, ih m (fun x hx => h x (List.mem_cons_of_mem c hx)) (by simpa using ha)]
      rfl

lemma byteTake_ascii : ∀ (t : List Char) (k : Nat), (∀ c ∈ t, c.toNat < 128) →
    k ≤ t.length → byteTake t k = some (t.take k) := by
  intro t
  induction t with
  | nil =>
    intro k _ hk
    have : k = 0 := by simpa using hk
    subst this
    rfl
  | cons c rest ih =>
    intro k h hk
    cases k with
    | zero => rfl
    | succ m =>
      have hc : charUtf8Len c = 1 := charUtf8Len_ascii (h c (List.mem_cons_self c rest))
      show (if charUtf8Len c ≤ m + 1 then
          (byteTake rest (m + 1 - charUtf8Len c)).map (c :: ·) else none) =
        some ((c :: rest).take (m+1))
      rw [if_pos (by omega), hc]
      have h2 : m + 1 - 1 = m := by omega
      rw [h2, ih m (fun x hx => h x (List.mem_cons_of_mem c hx)) (by simpa using hk)]
      rfl

lemma byteSlice_ascii (t : List Char) (a b : Nat) (h : ∀ c ∈ t, c.toNat < 128)
    (hab : a ≤ b) (hb : b ≤ t.length) :
    byteSlice t a b = some (listSlice t a b) := by
  unfold byteSlice
  rw [if_pos hab, byteDrop_ascii t a h (by omega)]
  show byteTake (t.drop a) (b - a) = some (listSlice t a b)
  rw [byteTake_ascii (t.drop a) (b - a)
    (fun x hx => h x (List.mem_of_mem_drop hx)) (by simp; omega)]
  rfl

lemma listSlice_append (ts : List Char) (a b c : Nat) (h1 : a ≤ b) (h2 : b ≤ c) :
    listSlice ts a b ++ listSlice ts b c = listSlice ts a c := by
  unfold listSlice
  have hd : ts.drop b = (ts.drop a).drop (b - a) := by
    rw [List.drop_drop]
    congr 1
    omega
  have hca : c - a = (b - a) + (c - b) := by omega
  rw [hd, hca, List.take_add]

lemma listSlice_self (ts : List Char) (a : Nat) : listSlice ts a a = [] := by
  simp [listSlice]

lemma listSlice_all (ts : List Char) : listSlice ts 0 ts.length = ts := by
  simp [listSlice]

/-! ### Segmentation run lemmas -/

lemma segInner_tail (t : List Char) (a : Anchor) :
    ∀ (k i : Nat) (tg : List InterpolationTarget) (l r : Nat), a.start < i →
      segInner t a k i ⟨tg, l, r⟩ =
        some (if k = 0 then ⟨tg, l, r⟩ else ⟨tg, l, i + k - 1⟩) := by
  intro k
  induction k with
  | zero => intro i tg l r _; rfl
  | succ n ih =>
    intro i tg l r hi
    simp only [segInner]
    rw [if_neg (show ¬(i = a.start) by omega)]
    rw [ih (i+1) tg l i (by omega)]
    by_cases hn : n = 0
    · subst hn
      simp
    · rw [if_neg hn, if_neg (by omega)]
      congr 2
      omega

lemma segInner_skip (t : List Char) (a : Anchor) :
    ∀ (m i : Nat) (tg : List InterpolationTarget) (l r : Nat),
      i + m = a.start → a.start < byteLen t →
      segInner t a (byteLen t - i) i ⟨tg, l, r⟩ =
        segInner t a (byteLen t - a.start) a.start
          ⟨tg, l, if m = 0 then r else a.start - 1⟩ := by
  intro m
  induction m with
  | zero =>
    intro i tg l r hi _
    have : i = a.start := by omega
    subst this
    rw [if_pos rfl]
  | succ n ih =>
    intro i tg l r hi hlt
    have hi2 : i < a.start := by omega
    have hfuel : byteLen t - i = (byteLen t - (i + 1)) + 1 := by omega
    rw [hfuel]
    simp only [segInner]
    rw [if_neg (show ¬(i = a.start) by omega)]
    rw [ih (i+1) tg l i (by omega) hlt]
    by_cases hn : n = 0
    · rw [if_pos hn, if_neg (by omega)]
      have : i = a.start - 1 := by omega
      rw [this]
    · rw [if_neg hn, if_neg (by omega)]

lemma segInner_run (t : List Char) (a : Anchor) (hasc : ∀ c ∈ t, c.toNat < 128)
    (lo : Nat) (hlo : lo ≤ a.start) (h1 : a.start < a.«end») (h2 : a.«end» ≤ t.length)
    (tg : List InterpolationTarget) (r : Nat) :
    segInner t a (byteLen t - lo) lo ⟨tg, lo, r⟩ =
      some { targets := tg ++ (if lo = a.start
               then [InterpolationTarget.anchor a]
               else [InterpolationTarget.literal (listSlice t lo a.start),
                     InterpolationTarget.anchor a]),
             leftCursor := a.«end»,
             rightCursor := if a.start = t.length - 1 then a.«end» else t.length - 1 } := by
  have hN : byteLen t = t.length := byteLen_ascii hasc
  have hstart : a.start < byteLen t := by omega
  rw [segInner_skip t a (a.start - lo) lo tg lo r (by omega) hstart]
  have hfuel : byteLen t - a.start = (byteLen t - (a.start + 1)) + 1 := by omega
  rw [hfuel]
  simp only [segInner]
  rw [if_pos trivial]
  by_cases hloeq : lo = a.start
  · rw [if_neg (show ¬(lo ≠ a.start) from fun hh => hh hloeq)]
    rw [segInner_tail t a _ _ _ _ _ (by omega)]
    rw [if_pos hloeq]
    by_cases hk : byteLen t - (a.start + 1) = 0
    · rw [if_pos hk, if_pos (by omega)]
    · rw [if_neg hk, if_neg (by omega)]
      congr 2
      omega
  · rw [if_pos (show lo ≠ a.start from hloeq)]
    simp only [byteSlice_ascii t lo a.start hasc (by omega) (by omega)]
    rw [segInner_tail t a _ _ _ _ _ (by omega)]
    rw [if_neg hloeq]
    by_cases hk : byteLen t - (a.start + 1) = 0
    · rw [if_pos hk, if_pos (by omega)]
    · rw [if_neg hk, if_neg (by omega)]
      congr 2
      omega

lemma segOuter_run (t : List Char) (hasc : ∀ c ∈ t, c.toNat < 128) :
    ∀ (anchors : List Anchor) (lo : Nat) (tg : List InterpolationTarget) (r : Nat),
      spansChain t.length lo anchors → lo ≤ t.length →
      (r = t.length → lo = t.length) →
      ∃ R, segOuter t anchors ⟨tg, lo, r⟩ =
          some { targets := tg ++ tile t lo anchors,
                 leftCursor := lastEnd0 lo anchors, rightCursor := R } ∧
        (R = t.length → lastEnd0 lo anchors = t.length) := by
  intro anchors
  induction anchors with
  | nil =>
    intro lo tg r _ _ hr
    exact ⟨r, by simp [segOuter, tile, lastEnd0], fun h => hr h⟩
  | cons a rest ih =>
    intro lo tg r hch hlo hr
    obtain ⟨hc1, hc2, hc3, hc4⟩ := hch
    have hN : byteLen t = t.length := byteLen_ascii hasc
    show ∃ R, (match segInner t a (byteLen t - lo) lo ⟨tg, lo, r⟩ with
      | none => none
      | some st2 => segOuter t rest st2) = _ ∧ _
    rw [segInner_run t a hasc lo hc1 hc2 hc3 tg r]
    show ∃ R, segOuter t rest _ = _ ∧ _
    have hr2 : (if a.start = t.length - 1 then a.«end» else t.length - 1) = t.length →
        a.«end» = t.length := by
      intro hh
      by_cases hcase : a.start = t.length - 1
      · rw [if_pos hcase] at hh; exact hh
      · rw [if_neg hcase] at hh; omega
    obtain ⟨R, hso, hR⟩ := ih a.«end»
      (tg ++ (if lo = a.start then [InterpolationTarget.anchor a]
        else [InterpolationTarget.literal (listSlice t lo a.start),
              InterpolationTarget.anchor a]))
      (if a.start = t.length - 1 then a.«end» else t.length - 1) hc4 hc3 hr2
    refine ⟨R, ?_, hR⟩
    rw [hso]
    congr 2
    show _ = tg ++ tile t lo (a :: rest)
    rw [List.append_assoc]
    congr 1
    show (if lo = a.start then [InterpolationTarget.anchor a]
        else [InterpolationTarget.literal (listSlice t lo a.start),
              InterpolationTarget.anchor a]) ++ tile t a.«end» rest = _
    by_cases hloeq : lo = a.start
    · rw [if_pos hloeq]
      show _ = (if lo = a.start then [] else _) ++ InterpolationTarget.anchor a :: tile t a.«end» rest
      rw [if_pos hloeq]
      rfl
    · rw [if_neg hloeq]
      show _ = (if lo = a.start then [] else [InterpolationTarget.literal (listSlice t lo a.start)])
        ++ InterpolationTarget.anchor a :: tile t a.«end» rest
      rw [if_neg hloeq]
      rfl

lemma lastEnd0_ge (len : Nat) : ∀ (l : List Anchor) (lo : Nat),
    spansChain len lo l → lo ≤ lastEnd0 lo l := by
  intro l
  induction l with
  | nil => intro lo _; exact le_refl _
  | cons a rest ih =>
    intro lo hch
    obtain ⟨h1, h2, _, h4⟩ := hch
    exact le_trans (by omega) (ih a.«end» h4)

lemma tile_text (t : List Char) : ∀ (anchors : List Anchor) (lo : Nat),
    spansChain t.length lo anchors →
    targetsText t (tile t lo anchors) = listSlice t lo (lastEnd0 lo anchors) := by
  intro anchors
  induction anchors with
  | nil =>
    intro lo _
    simp [tile, targetsText, lastEnd0, listSlice_self]
  | cons a rest ih =>
    intro lo hch
    obtain ⟨hc1, hc2, hc3, hc4⟩ := hch
    have hge : a.«end» ≤ lastEnd0 a.«end» rest := lastEnd0_ge t.length rest a.«end» hc4
    have hIH := ih a.«end» hc4
    show targetsText t ((if lo = a.start then []
        else [InterpolationTarget.literal (listSlice t lo a.start)])
      ++ InterpolationTarget.anchor a :: tile t a.«end» rest) = _
    have hsplit : targetsText t ((if lo = a.start then []
          else [InterpolationTarget.literal (listSlice t lo a.start)])
        ++ InterpolationTarget.anchor a :: tile t a.«end» rest)
        = (if lo = a.start then ([] : List Char) else listSlice t lo a.start)
          ++ (listSlice t a.start a.«end» ++ targetsText t (tile t a.«end» rest)) := by
      by_cases hloeq : lo = a.start <;>
        simp [hloeq, targetsText, targetText, List.map_append]
    rw [hsplit, hIH]
    have hfront : (if lo = a.start then ([] : List Char) else listSlice t lo a.start)
        = listSlice t lo a.start := by
      by_cases hloeq : lo = a.start
      · rw [if_pos hloeq, hloeq, listSlice_self]
      · rw [if_neg hloeq]
    rw [hfront, listSlice_append t a.start a.«end» _ (by omega) hge,
        listSlice_append t lo a.start _ hc1 (le_trans (by omega) hge)]
    rfl

/-! ### C1 -/

lemma segFinish_at_len (t : List Char) (tg : List InterpolationTarget) (l r : Nat)
    (h : r = byteLen t) : segFinish t ⟨tg, l, r⟩ = some tg := by
  simp only [segFinish]
  rw [if_neg (fun hne => hne h)]

lemma segFinish_below_len (t : List Char) (tg : List InterpolationTarget) (l r : Nat)
    (hr : r ≠ byteLen t) (sec : List Char)
    (hs : byteSlice t l (byteLen t) = some sec) :
    segFinish t ⟨tg, l, r⟩ =
      some (if ¬sec.isEmpty then tg ++ [InterpolationTarget.literal sec] else tg) := by
  simp only [segFinish]
  rw [if_pos hr]
  simp only [hs]

/-- C1 counterexample: the template "éé\x7ba\x7d" is accepted by
`OutputTemplate::parse`, but because the segmentation walks byte indices
while the anchor carries character indices, the resulting targets
concatenate to "é\x7ba\x7da\x7d" rather than the original template: the
first "é" is half-lost and the anchor tail is double-counted. -/
theorem C1_counterexample :
    (OutputTemplate.parse 40 "éé\x7ba\x7d".toList).toOption.map
        (fun tpl => targetsText "éé\x7ba\x7d".toList tpl.targets) =
      some "é\x7ba\x7da\x7d".toList ∧
    "é\x7ba\x7da\x7d".toList ≠ "éé\x7ba\x7d".toList := by
  exact ⟨by decide, by decide⟩

/-- C1 (amended): for every template whose characters are all ASCII
(single-byte, so the byte indices walked by `OutputTemplate::parse` agree
with the parser's character indices), the targets of a successfully
parsed output template tile the template exactly: concatenating each
literal's text and each anchor's source span `[start, end)` reconstructs
the template with no character unaccounted for and none double-counted.
For non-ASCII templates the property fails (see the counterexample). -/
theorem C1_targets_tile_template (fuel : Nat) (t : List Char) (tpl : OutputTemplate)
    (hasc : ∀ c ∈ t, c.toNat < 128)
    (hp : OutputTemplate.parse fuel t = Except.ok tpl) :
    targetsText t tpl.targets = t := by
  unfold OutputTemplate.parse at hp
  cases hpa : parseAnchors fuel t with
  | outOfFuel => simp only [hpa] at hp; cases hp
  | fail e => simp only [hpa] at hp; cases hp
  | ok anchors =>
    simp only [hpa] at hp
    obtain ⟨hchain, _⟩ := parseAnchors_ok_inv fuel t anchors hpa
    have hN : byteLen t = t.length := byteLen_ascii hasc
    obtain ⟨R, hso, hR⟩ := segOuter_run t hasc anchors 0 [] 0 hchain
      (by omega) (fun h0 => h0)
    simp only [hso] at hp
    have hL : lastEnd0 0 anchors ≤ t.length :=
      lastEnd0_le_len t.length anchors 0 hchain (by omega)
    have htile := tile_text t anchors 0 hchain
    by_cases hRlen : R = t.length
    · have hLeq := hR hRlen
      have hfin := segFinish_at_len t ([] ++ tile t 0 anchors) (lastEnd0 0 anchors) R
        (by omega)
      simp only [hfin] at hp
      injection hp with hp1
      rw [← hp1]
      show targetsText t ([] ++ tile t 0 anchors) = t
      rw [List.nil_append, htile, hLeq, listSlice_all]
    · have hslice : byteSlice t (lastEnd0 0 anchors) (byteLen t)
          = some (listSlice t (lastEnd0 0 anchors) t.length) := by
        rw [hN]
        exact byteSlice_ascii t (lastEnd0 0 anchors) t.length hasc hL (le_refl _)
      have hfin := segFinish_below_len t ([] ++ tile t 0 anchors) (lastEnd0 0 anchors) R
        (by omega) (listSlice t (lastEnd0 0 anchors) t.length) hslice
      simp only [hfin] at hp
      by_cases hsec : (listSlice t (lastEnd0 0 anchors) t.length).isEmpty = true
      · rw [if_neg (by simpa using hsec)] at hp
        injection hp with hp1
        rw [← hp1]
        show targetsText t ([] ++ tile t 0 anchors) = t
        rw [List.nil_append, htile]
        have hnil : listSlice t (lastEnd0 0 anchors) t.length = [] :=
          List.isEmpty_eq_true.mp hsec
        have hsplit : listSlice t 0 (lastEnd0 0 anchors)
            = listSlice t 0 (lastEnd0 0 anchors)
              ++ listSlice t (lastEnd0 0 anchors) t.length := by
          rw [hnil, List.append_nil]
        rw [hsplit, listSlice_append t 0 _ _ (by omega) hL, listSlice_all]
      · rw [if_pos (by simpa using hsec)] at hp
        injection hp with hp1
        rw [← hp1]
        show targetsText t (([] ++ tile t 0 anchors)
          ++ [InterpolationTarget.literal (listSlice t (lastEnd0 0 anchors) t.length)]) = t
        rw [List.nil_append]
        show (List.map (targetText t) (tile t 0 anchors
          ++ [InterpolationTarget.literal
              (listSlice t (lastEnd0 0 anchors) t.length)])).flatten = t
        rw [List.map_append, List.flatten_append]
        show targetsText t (tile t 0 anchors)
          ++ (List.map (targetText t) [InterpolationTarget.literal
              (listSlice t (lastEnd0 0 anchors) t.length)]).flatten = t
        rw [htile]
        show listSlice t 0 (lastEnd0 0 anchors)
          ++ (listSlice t (lastEnd0 0 anchors) t.length ++ []) = t
        rw [List.append_nil, listSlice_append t 0 _ _ (by omega) hL, listSlice_all]

/-- Witness for C1's amended theorem at the ASCII template
"log=\x7bfoo\x7d!". -/
theorem C1_targets_tile_template_witness :
    OutputTemplate.parse 40 "log=\x7bfoo\x7d!".toList = Except.ok exC1tpl ∧
    targetsText "log=\x7bfoo\x7d!".toList exC1tpl.targets = "log=\x7bfoo\x7d!".toList :=
  ⟨by decide,
   C1_targets_tile_template 40 "log=\x7bfoo\x7d!".toList exC1tpl (by decide) (by decide)⟩

/-! ### C10 -/

/-- C10: the parser never produces an empty literal default.  Every
`DefaultValue::Literal` in a successfully parsed anchor list is non-empty
(the quote scan starts one position past the opening quote, so even an
immediately repeated quote becomes content), and a template whose anchor
carries an empty quoted default followed by the anchor close fails to
parse with the missing-closing-quote error, for both quote characters. -/
theorem C10_no_empty_literal_default :
    (∀ (fuel : Nat) (t : List Char) (as : List Anchor),
        parseAnchors fuel t = ParseOutcome.ok as →
        ∀ a ∈ as, ∀ d ∈ a.defaults, ∀ v, d = DefaultValue.literal v → v ≠ []) ∧
    parseAnchors 40 "\x7bfoo || ''\x7d".toList =
      ParseOutcome.fail (.parse ⟨.defaultStrLiteralMissingClosingQuote, 10⟩) ∧
    parseAnchors 40 "\x7bfoo || \"\"\x7d".toList =
      ParseOutcome.fail (.parse ⟨.defaultStrLiteralMissingClosingQuote, 10⟩) := by
  refine ⟨?_, by decide, by decide⟩
  intro fuel t as h a ha d hd v hv
  obtain ⟨_, hdv⟩ := parseAnchors_ok_inv fuel t as h
  have := hdv a ha d hd
  rw [hv] at this
  exact this

/-- Witness for C10's universal part at a template with a parsed literal
default. -/
theorem C10_no_empty_literal_default_witness :
    parseAnchors 40 "\x7bfoo || 'bar'\x7d".toList = ParseOutcome.ok
      [{ name := "foo".toList, start := 0, «end» := 14,
         defaults := [DefaultValue.literal "bar".toList] }] ∧
    "bar".toList ≠ [] :=
  ⟨by decide,
   C10_no_empty_literal_default.1 40 "\x7bfoo || 'bar'\x7d".toList
     [{ name := "foo".toList, start := 0, «end» := 14,
        defaults := [DefaultValue.literal "bar".toList] }] (by decide)
     { name := "foo".toList, start := 0, «end» := 14,
       defaults := [DefaultValue.literal "bar".toList] } (by decide)
     (DefaultValue.literal "bar".toList) (by decide) "bar".toList rfl⟩

/-! ### C9 -/

lemma byteLen_cons (c : Char) (rest : List Char) :
    byteLen (c :: rest) = charUtf8Len c + byteLen rest := by
  simp [byteLen]

lemma charUtf8Len_pos (c : Char) : 1 ≤ charUtf8Len c := by
  unfold charUtf8Len
  split <;> simp_all <;> split <;> simp_all <;> split <;> simp_all

lemma byteTake_all : ∀ s : List Char, byteTake s (byteLen s) = some s := by
  intro s
  induction s with
  | nil => rfl
  | cons c rest ih =>
    have hpos := charUtf8Len_pos c
    have h : byteLen (c :: rest) = (charUtf8Len c + byteLen rest - 1) + 1 := by
      rw [byteLen_cons]; omega
    rw [h]
    show (if charUtf8Len c ≤ (charUtf8Len c + byteLen rest - 1) + 1 then
        (byteTake rest ((charUtf8Len c + byteLen rest - 1) + 1 - charUtf8Len c)).map (c :: ·)
      else none) = some (c :: rest)
    have h2 : (charUtf8Len c + byteLen rest - 1) + 1 - charUtf8Len c = byteLen rest := by omega
    rw [if_pos (by omega), h2, ih]
    rfl

lemma byteSlice_full (s : List Char) : byteSlice s 0 (byteLen s) = some s := by
  simp [byteSlice, byteDrop, byteTake_all]

lemma byteLen_eq_zero {s : List Char} (h : byteLen s = 0) : s = [] := by
  cases s with
  | nil => rfl
  | cons c rest =>
    exfalso
    have := charUtf8Len_pos c
    rw [byteLen_cons] at h
    omega

/-- C9: escape backslashes are preserved: a template that parses with no
anchors (in particular one using the backslash escape) is carried to the
output verbatim by `transform`, for every interpolation map — the escape
character is not stripped. -/
theorem C9_escape_preserved_verbatim (fuel : Nat) (t : List Char)
    (tpl : OutputTemplate) (isM : List Char → List Char → Bool) (imap : InterpMap)
    (hanch : parseAnchors fuel t = ParseOutcome.ok [])
    (hp : OutputTemplate.parse fuel t = Except.ok tpl) :
    tpl.transform isM imap = t := by
  by_cases hz : byteLen t = 0
  · have ht : t = [] := byteLen_eq_zero hz
    subst ht
    have key : OutputTemplate.parse fuel [] = Except.ok ⟨[]⟩ := by
      unfold OutputTemplate.parse
      rw [hanch]
      rfl
    rw [key] at hp
    cases hp
    rfl
  · have hfin : segFinish t ⟨[], 0, 0⟩ = some [InterpolationTarget.literal t] := by
      unfold segFinish
      rw [if_pos (show (⟨[], 0, 0⟩ : SegState).rightCursor ≠ byteLen t from
        fun h => hz h.symm)]
      rw [show (⟨[], 0, 0⟩ : SegState).leftCursor = 0 from rfl, byteSlice_full]
      have ht : t ≠ [] := fun h => hz (by rw [h]; rfl)
      simp [List.isEmpty_eq_true, ht]
    have key : OutputTemplate.parse fuel t = Except.ok ⟨[InterpolationTarget.literal t]⟩ := by
      unfold OutputTemplate.parse
      rw [hanch]
      simp only [segOuter]
      rw [hfin]
    rw [key] at hp
    cases hp
    show transformGo isM imap [InterpolationTarget.literal t] [] = t
    simp [transformGo]

/-- Witness for C9 at the template "\\\x7bfoo\x7d": the whole template,
backslash included, survives to the output. -/
theorem C9_escape_preserved_verbatim_witness :
    parseAnchors 40 "\\\x7bfoo\x7d".toList = ParseOutcome.ok [] ∧
    exC9tpl.transform noMatchFn (fun _ => none) = "\\\x7bfoo\x7d".toList :=
  ⟨by decide,
   C9_escape_preserved_verbatim 40 "\\\x7bfoo\x7d".toList exC9tpl noMatchFn
     (fun _ => none) (by decide) (by decide)⟩

end Grits
